import Mathlib

/-!
# The generate / fan-out / fan-in pipeline of `precode.go`

`precode.go` starts one `Generator`, `NumOut` `Worker`s, `NumOut` collector
goroutines, one goroutine that waits on the `WaitGroup` and closes `chOut`, and
reads `chOut` in `main`.  The program is embedded as an interleaving transition
system: a state holds the program counter and the local variables of every
goroutine together with the contents of the channels, and one `Action` is one
atomic step of one goroutine.

* `chIn` and `outs[k]` are unbuffered, so a send and the matching receive are one
  joint step of the two goroutines (`genSend`, `workerSend`).
* `chOut` is buffered; its buffer is a list bounded by the capacity.
* `int64` arithmetic is `Int` arithmetic followed by `wrap64`.
* A `return` together with the deferred call it triggers (`close(ch)`,
  `close(out)`, `wg.Done()`) is one step, and so is `wg.Wait()` together with
  the `close(chOut)` that follows it: nothing another goroutine can observe lies
  between the two.
* `init` is the state in which every goroutine stands at its first statement.
  A goroutine that `main` has not started yet behaves like one that has not been
  scheduled yet, so the interleavings of the program are interleavings of the
  model.
* Time is not modelled: `timeout` may happen at any moment (also first, which is
  the run with an already expired context), and `time.Sleep` ends at any moment.
* The fields `genLog`, `wLog` and `got` are history variables: they record what
  was sent, received and read, influence no step, and exist only so that the
  properties about sequences of values can be stated.
-/

namespace Pipeline

/-! ## `int64` -/

/-- Two's-complement reduction of an integer to the `int64` range. -/
def wrap64 (x : Int) : Int :=
  (x + 9223372036854775808) % 18446744073709551616 - 9223372036854775808

/-- The values representable as `int64`. -/
def InRange (x : Int) : Prop :=
  -9223372036854775808 ≤ x ∧ x < 9223372036854775808

instance (x : Int) : Decidable (InRange x) := by
  unfold InRange; infer_instance

/-! ## Program counters -/

/-- Where `Generator` stands: at the `select`, between the accepted send and
`fn(i)`, or returned (the deferred `close(ch)` has run). -/
inductive GenPc
  | select
  | called
  | done
  deriving DecidableEq, Repr

/-- Where a `Worker` stands: at `range in`, holding `v` at `out <- v`, in
`time.Sleep`, or returned (the deferred `close(out)` has run). -/
inductive WorkerPc
  | recv
  | hold (v : Int)
  | sleep
  | done
  deriving DecidableEq, Repr

/-- Where a collector goroutine stands: at `range outs[i]`, holding `v` before
`amounts[i]++`, holding `v` at `chOut <- v`, or returned (`wg.Done()` has run). -/
inductive CollPc
  | recv
  | got (v : Int)
  | fwd (v : Int)
  | done
  deriving DecidableEq, Repr

/-- Where `main` stands: in `for v := range chOut`, or past the loop. -/
inductive MainPc
  | reading
  | finished
  deriving DecidableEq, Repr

/-! ## History events -/

/-- What `Generator` did on `ch`: a completed send `ch <- v`, a call `fn(v)`,
the `close(ch)`. -/
inductive GenEv
  | send (v : Int)
  | call (v : Int)
  | close
  deriving DecidableEq, Repr

/-- What a `Worker` did: a value received from `in`, a completed send on
`out`, the `close(out)`. -/
inductive WorkerEv
  | recv (v : Int)
  | send (v : Int)
  | close
  deriving DecidableEq, Repr

/-! ## State -/

/-- One lane: `Worker` number `k`, the channel `outs[k]`, the collector
goroutine number `k` and the cell `amounts[k]`.  `outs[k]` carries no state of
its own: it is unbuffered and it is closed exactly when its worker is `done`. -/
structure Lane where
  w : WorkerPc
  c : CollPc
  amount : Int
  wLog : List WorkerEv
  deriving DecidableEq, Repr

/-- The state of the whole program. -/
structure State where
  /-- whether `ctx.Done()` is closed -/
  ctxDone : Bool
  gen : GenPc
  /-- the local `i` of `Generator` -/
  i : Int
  inputSum : Int
  inputCount : Int
  lanes : List Lane
  /-- the buffer of `chOut`, oldest value first -/
  chOut : List Int
  chOutClosed : Bool
  /-- the counter of the `WaitGroup` -/
  wg : Int
  /-- whether the goroutine `wg.Wait(); close(chOut)` has finished -/
  mergerDone : Bool
  main : MainPc
  count : Int
  sum : Int
  /-- a run-time panic has happened: send on a closed channel, close of a
  closed channel, negative `WaitGroup` counter -/
  panicked : Bool
  genLog : List GenEv
  /-- the values `main` has read from `chOut`, in order -/
  got : List Int
  deriving DecidableEq, Repr

/-- `chIn` is closed exactly when `Generator` has returned. -/
def State.chInClosed (s : State) : Bool := s.gen == GenPc.done

/-- The slice `amounts`. -/
def State.amounts (s : State) : List Int := s.lanes.map Lane.amount

/-- A lane before its goroutines have taken a step. -/
def Lane.init : Lane := ⟨WorkerPc.recv, CollPc.recv, 0, []⟩

/-- The state once `main` has started all goroutines of a pipeline with `N`
workers: `i = 1`, all counters zero, `wg.Add(N)` done, nothing sent. -/
def init (N : Nat) : State where
  ctxDone := false
  gen := GenPc.select
  i := 1
  inputSum := 0
  inputCount := 0
  lanes := List.replicate N Lane.init
  chOut := []
  chOutClosed := false
  wg := N
  mergerDone := false
  main := MainPc.reading
  count := 0
  sum := 0
  panicked := false
  genLog := []
  got := []

/-! ## Steps -/

/-- The atomic steps of the goroutines.  `k` is the number of a lane. -/
inductive Action
  /-- the deadline of the context passes -/
  | timeout
  /-- `case ch <- i` of `Generator` together with the receive of `Worker k` -/
  | genSend (k : Nat)
  /-- `fn(i); i++` -/
  | genCall
  /-- `case <-ctx.Done(): return`, then the deferred `close(ch)` -/
  | genStop
  /-- `out <- v` of `Worker k` together with the receive of collector `k` -/
  | workerSend (k : Nat)
  /-- the end of `time.Sleep` -/
  | workerWake (k : Nat)
  /-- `range in` of `Worker k` ends, then the deferred `close(out)` -/
  | workerStop (k : Nat)
  /-- `amounts[k]++` -/
  | collTally (k : Nat)
  /-- `chOut <- v` of collector `k` -/
  | collForward (k : Nat)
  /-- `range outs[k]` ends, then the deferred `wg.Done()` -/
  | collStop (k : Nat)
  /-- `wg.Wait()` returns, then `close(chOut)` -/
  | mergeClose
  /-- one iteration of `for v := range chOut` in `main` -/
  | mainRecv
  /-- `range chOut` ends -/
  | mainStop
  deriving DecidableEq, Repr

/-- One step of the pipeline with `chOut` of capacity `cap`; `none` when the
step is not enabled in `s`.  After a panic nothing is enabled. -/
def step (cap : Nat) (s : State) : Action → Option State
  | .timeout =>
    if s.panicked then none
    else if s.ctxDone then none
    else some { s with ctxDone := true }
  | .genSend k =>
    if s.panicked then none
    else match s.gen, s.lanes[k]? with
      | .select, some l =>
        match l.w with
        | .recv =>
          some { s with
            gen := GenPc.called
            lanes := s.lanes.set k
              { l with w := WorkerPc.hold s.i, wLog := l.wLog ++ [WorkerEv.recv s.i] }
            genLog := s.genLog ++ [GenEv.send s.i] }
        | _ => none
      | _, _ => none
  | .genCall =>
    if s.panicked then none
    else match s.gen with
      | .called =>
        some { s with
          gen := GenPc.select
          inputSum := wrap64 (s.inputSum + s.i)
          inputCount := wrap64 (s.inputCount + 1)
          i := wrap64 (s.i + 1)
          genLog := s.genLog ++ [GenEv.call s.i] }
      | _ => none
  | .genStop =>
    if s.panicked then none
    else match s.gen with
      | .select =>
        if s.ctxDone then
          some { s with gen := GenPc.done, genLog := s.genLog ++ [GenEv.close] }
        else none
      | _ => none
  | .workerSend k =>
    if s.panicked then none
    else match s.lanes[k]? with
      | some l =>
        match l.w, l.c with
        | .hold v, .recv =>
          some { s with
            lanes := s.lanes.set k
              { l with w := WorkerPc.sleep, c := CollPc.got v,
                       wLog := l.wLog ++ [WorkerEv.send v] } }
        | _, _ => none
      | none => none
  | .workerWake k =>
    if s.panicked then none
    else match s.lanes[k]? with
      | some l =>
        match l.w with
        | .sleep => some { s with lanes := s.lanes.set k { l with w := WorkerPc.recv } }
        | _ => none
      | none => none
  | .workerStop k =>
    if s.panicked then none
    else match s.lanes[k]? with
      | some l =>
        match l.w with
        | .recv =>
          if s.chInClosed then
            some { s with
              lanes := s.lanes.set k
                { l with w := WorkerPc.done, wLog := l.wLog ++ [WorkerEv.close] } }
          else none
        | _ => none
      | none => none
  | .collTally k =>
    if s.panicked then none
    else match s.lanes[k]? with
      | some l =>
        match l.c with
        | .got v =>
          some { s with
            lanes := s.lanes.set k
              { l with c := CollPc.fwd v, amount := wrap64 (l.amount + 1) } }
        | _ => none
      | none => none
  | .collForward k =>
    if s.panicked then none
    else match s.lanes[k]? with
      | some l =>
        match l.c with
        | .fwd v =>
          if s.chOutClosed then some { s with panicked := true }
          else if s.chOut.length < cap then
            some { s with
              lanes := s.lanes.set k { l with c := CollPc.recv }
              chOut := s.chOut ++ [v] }
          else none
        | _ => none
      | none => none
  | .collStop k =>
    if s.panicked then none
    else match s.lanes[k]? with
      | some l =>
        match l.w, l.c with
        | .done, .recv =>
          if s.wg - 1 < 0 then some { s with panicked := true }
          else some { s with
            lanes := s.lanes.set k { l with c := CollPc.done }
            wg := s.wg - 1 }
        | _, _ => none
      | none => none
  | .mergeClose =>
    if s.panicked then none
    else if s.mergerDone then none
    else if s.wg = 0 then
      if s.chOutClosed then some { s with panicked := true }
      else some { s with chOutClosed := true, mergerDone := true }
    else none
  | .mainRecv =>
    if s.panicked then none
    else match s.main, s.chOut with
      | .reading, v :: rest =>
        some { s with
          chOut := rest
          count := wrap64 (s.count + 1)
          sum := wrap64 (s.sum + v)
          got := s.got ++ [v] }
      | _, _ => none
  | .mainStop =>
    if s.panicked then none
    else match s.main, s.chOut with
      | .reading, [] =>
        if s.chOutClosed then some { s with main := MainPc.finished } else none
      | _, _ => none

/-- Run a list of steps from `s`; `none` when one of them is not enabled. -/
def run (cap : Nat) (s : State) : List Action → Option State
  | [] => some s
  | a :: as => (step cap s a).bind fun t => run cap t as

/-- The states of the pipeline with `N` workers (and `chOut` of capacity `N`,
as in `make(chan int64, NumOut)`) that some interleaving reaches. -/
def Reachable (N : Nat) (s : State) : Prop :=
  ∃ acts : List Action, run N (init N) acts = some s

/-- The state in which everything has run to completion: `main` is past its
loop. -/
def State.terminated (s : State) : Prop := s.main = MainPc.finished

instance (s : State) : Decidable s.terminated := by
  unfold State.terminated; infer_instance

/-! ## The final check of `main` -/

/-- The three `log.Fatalf` calls of `main`. -/
inductive Fatal
  | sumMismatch
  | countMismatch
  | distributionMismatch
  deriving DecidableEq, Repr

/-- The loop `for _, v := range amounts { inputCount -= v }`. -/
def drainAmounts (inputCount : Int) (amounts : List Int) : Int :=
  amounts.foldl (fun acc v => wrap64 (acc - v)) inputCount

/-- Lines 110-121 of `main`: `none` when `main` returns normally, otherwise the
`log.Fatalf` that halts it. -/
def finalCheck (inputSum inputCount sum count : Int) (amounts : List Int) : Option Fatal :=
  if inputSum ≠ sum then some Fatal.sumMismatch
  else if inputCount ≠ count then some Fatal.countMismatch
  else if drainAmounts inputCount amounts ≠ 0 then some Fatal.distributionMismatch
  else none

/-- The final check applied to the variables of a state. -/
def State.verdict (s : State) : Option Fatal :=
  finalCheck s.inputSum s.inputCount s.sum s.count s.amounts

/-! ## A complete run with one worker and one value -/

/-- One value travels through a pipeline with a single lane; the context then
expires and every goroutine returns. -/
def demoRun : List Action :=
  [Action.genSend 0, Action.genCall, Action.workerSend 0, Action.collTally 0,
   Action.collForward 0, Action.workerWake 0, Action.timeout, Action.genStop,
   Action.workerStop 0, Action.collStop 0, Action.mergeClose, Action.mainRecv,
   Action.mainStop]

/-- The state `demoRun` ends in. -/
def demoFinal : State where
  ctxDone := true
  gen := GenPc.done
  i := 2
  inputSum := 1
  inputCount := 1
  lanes := [⟨WorkerPc.done, CollPc.done, 1,
    [WorkerEv.recv 1, WorkerEv.send 1, WorkerEv.close]⟩]
  chOut := []
  chOutClosed := true
  wg := 0
  mergerDone := true
  main := MainPc.finished
  count := 1
  sum := 1
  panicked := false
  genLog := [GenEv.send 1, GenEv.call 1, GenEv.close]
  got := [1]

/-- `1` for `true`, `0` for `false`. -/
def flag (b : Bool) : Nat := if b then 1 else 0

/-- Whether the collector of the lane still owes its `wg.Done()`. -/
def Lane.collActive (l : Lane) : Int := if l.c = CollPc.done then 0 else 1

/-- The facts about the control state that hold in every reachable state. -/
structure Struct (N : Nat) (s : State) : Prop where
  noPanic : s.panicked = false
  workerDone : ∀ l ∈ s.lanes, l.w = WorkerPc.done → s.gen = GenPc.done
  collDone : ∀ l ∈ s.lanes, l.c = CollPc.done → l.w = WorkerPc.done
  closed : s.chOutClosed = true → ∀ l ∈ s.lanes, l.c = CollPc.done
  wgEq : s.wg = (s.lanes.map Lane.collActive).sum
  merger : s.mergerDone = s.chOutClosed
  mainFin : s.main = MainPc.finished → s.chOutClosed = true ∧ s.chOut = []
  len : s.lanes.length = N
  buf : s.chOut.length ≤ N

/-! ## Histories and the quantities the invariants speak about -/

/-- The value of a completed send on `chIn`. -/
def GenEv.sendVal : GenEv → Option Int
  | GenEv.send v => some v
  | _ => none

/-- The argument of a call of `fn`. -/
def GenEv.callVal : GenEv → Option Int
  | GenEv.call v => some v
  | _ => none

/-- The values `Generator` has sent on `chIn`, in order. -/
def sends (log : List GenEv) : List Int := log.filterMap GenEv.sendVal

/-- The arguments `fn` has been called with, in order. -/
def calls (log : List GenEv) : List Int := log.filterMap GenEv.callVal

/-- The value of a receive from `in`. -/
def WorkerEv.recvVal : WorkerEv → Option Int
  | WorkerEv.recv v => some v
  | _ => none

/-- The value of a completed send on `out`. -/
def WorkerEv.sendVal : WorkerEv → Option Int
  | WorkerEv.send v => some v
  | _ => none

/-- The values a `Worker` has received from `in`, in order. -/
def received (log : List WorkerEv) : List Int := log.filterMap WorkerEv.recvVal

/-- The values a `Worker` has sent on `out`, in order. -/
def forwarded (log : List WorkerEv) : List Int := log.filterMap WorkerEv.sendVal

/-- The history of a `Generator` that has sent and accounted for the first `n`
values: `ch <- 1, fn(1), ch <- 2, fn(2), ...`, every value reduced to `int64`. -/
def genPrefix : Nat → List GenEv
  | 0 => []
  | n + 1 => genPrefix n ++ [GenEv.send (wrap64 (n + 1)), GenEv.call (wrap64 (n + 1))]

/-- What follows the accounted-for part of the history of `Generator`. -/
def genTail (pc : GenPc) (i : Int) : List GenEv :=
  match pc with
  | GenPc.select => []
  | GenPc.called => [GenEv.send i]
  | GenPc.done => [GenEv.close]

/-- The history of a `Worker` that has received and forwarded the values `vs`. -/
def workerPrefix : List Int → List WorkerEv
  | [] => []
  | v :: vs => WorkerEv.recv v :: WorkerEv.send v :: workerPrefix vs

/-- What follows the forwarded part of the history of a `Worker`. -/
def workerTail (pc : WorkerPc) : List WorkerEv :=
  match pc with
  | WorkerPc.recv => []
  | WorkerPc.hold v => [WorkerEv.recv v]
  | WorkerPc.sleep => []
  | WorkerPc.done => [WorkerEv.close]

/-- The closed form `n (n + 1) / 2` of `1 + 2 + ... + n`. -/
def gauss (n : Nat) : Nat := n * (n + 1) / 2

/-- The values `1, 2, ..., n` as `Generator` computes them in `int64`. -/
def seqTo (n : Nat) : List Int := (List.range n).map fun (k : Nat) => wrap64 ((k : Int) + 1)

/-- The integers `1, 2, ..., n`. -/
def oneTo (n : Nat) : List Int := (List.range n).map fun (k : Nat) => (k : Int) + 1

/-- The Go expression `inputCount * (inputCount + 1) / 2` evaluated in `int64`:
every operation wraps, `/` truncates towards zero. -/
def gaussInt64 (c : Int) : Int := wrap64 (Int.tdiv (wrap64 (c * wrap64 (c + 1))) 2)

/-- The value a `Worker` holds in its local `v`. -/
def WorkerPc.held : WorkerPc → List Int
  | WorkerPc.hold v => [v]
  | _ => []

/-- The value a collector holds in its local `v`. -/
def CollPc.held : CollPc → List Int
  | CollPc.got v => [v]
  | CollPc.fwd v => [v]
  | _ => []

/-- Is the collector between its receive and `amounts[i]++`. -/
def CollPc.pending : CollPc → Int
  | CollPc.got _ => 1
  | _ => 0

/-- Does the collector hold a value. -/
def CollPc.holding : CollPc → Nat
  | CollPc.got _ => 1
  | CollPc.fwd _ => 1
  | _ => 0

/-- The values a lane holds in the local variables `v` of its two goroutines. -/
def Lane.held (l : Lane) : List Int := l.w.held ++ l.c.held

/-- How often a lane holds the value `v`. -/
def Lane.heldCount (v : Int) (l : Lane) : Nat := l.held.count v

/-- How many values the `Worker` of the lane has sent on `outs[k]`. -/
def Lane.fwdCount (l : Lane) : Nat := (forwarded l.wLog).length

/-- How often the `Worker` of the lane has received the value `v` from `chIn`. -/
def Lane.recvCount (v : Int) (l : Lane) : Nat := (received l.wLog).count v

/-- Is the collector of the lane between its receive and `amounts[i]++`. -/
def Lane.pendingTally (l : Lane) : Int := l.c.pending

/-- Does the collector of the lane hold a value. -/
def Lane.collHolding (l : Lane) : Nat := l.c.holding

/-- What links the variables of `Generator` and of the accounting callback to
the history of `Generator`. -/
structure GenInv (s : State) : Prop where
  log : s.genLog = genPrefix (calls s.genLog).length ++ genTail s.gen s.i
  i_eq : s.i = wrap64 (((calls s.genLog).length : Int) + 1)
  count_eq : s.inputCount = wrap64 (calls s.genLog).length
  sum_eq : s.inputSum = wrap64 (gauss (calls s.genLog).length)
  ctx : s.gen = GenPc.done → s.ctxDone = true

/-- What links the state of a lane to the history of its `Worker`. -/
structure LaneInv (l : Lane) : Prop where
  log : l.wLog = workerPrefix (forwarded l.wLog) ++ workerTail l.w
  amount_eq : l.amount = wrap64 ((l.fwdCount : Int) - l.pendingTally)

/-- Where the values are: every value sent on `chIn` is held by a lane, buffered
in `chOut` or already read by `main`, and was received by exactly one `Worker`;
every value forwarded on some `outs[k]` is held by its collector, buffered or
read. -/
structure FlowInv (s : State) : Prop where
  vals : ∀ v : Int, (sends s.genLog).count v =
    s.got.count v + s.chOut.count v + (s.lanes.map (Lane.heldCount v)).sum
  recv : ∀ v : Int, (sends s.genLog).count v = (s.lanes.map (Lane.recvCount v)).sum
  fwd : (s.lanes.map Lane.fwdCount).sum =
    s.got.length + s.chOut.length + (s.lanes.map Lane.collHolding).sum
  count_eq : s.count = wrap64 s.got.length
  sum_eq : s.sum = wrap64 s.got.sum

/-- Everything that holds in every reachable state of the pipeline with `N`
workers. -/
structure Inv (N : Nat) (s : State) : Prop where
  struct : Struct N s
  gen : GenInv s
  lane : ∀ l ∈ s.lanes, LaneInv l
  flow : FlowInv s

/-! ## A run with two workers in which `chOut` fills up before `main` reads -/

/-- Three values are generated; the collectors fill the buffer of `chOut` and
collector `0` blocks at `chOut <- 3` while `main` has not read anything; the
context expires and `Generator` returns. -/
def jamRun : List Action :=
  [Action.genSend 0, Action.genCall, Action.genSend 1, Action.genCall,
   Action.workerSend 0, Action.collTally 0, Action.collForward 0,
   Action.workerSend 1, Action.collTally 1, Action.collForward 1,
   Action.workerWake 0, Action.genSend 0, Action.genCall, Action.workerSend 0,
   Action.collTally 0, Action.timeout, Action.genStop]

/-- The state `jamRun` ends in. -/
def jamState : State where
  ctxDone := true
  gen := GenPc.done
  i := 4
  inputSum := 6
  inputCount := 3
  lanes :=
    [⟨WorkerPc.sleep, CollPc.fwd 3, 2,
        [WorkerEv.recv 1, WorkerEv.send 1, WorkerEv.recv 3, WorkerEv.send 3]⟩,
     ⟨WorkerPc.sleep, CollPc.recv, 1, [WorkerEv.recv 2, WorkerEv.send 2]⟩]
  chOut := [1, 2]
  chOutClosed := false
  wg := 2
  mergerDone := false
  main := MainPc.reading
  count := 0
  sum := 0
  panicked := false
  genLog := [GenEv.send 1, GenEv.call 1, GenEv.send 2, GenEv.call 2, GenEv.send 3,
    GenEv.call 3, GenEv.close]
  got := []

/-- From `jamState`, `main` drains `chOut` and every goroutine returns. -/
def drainRun : List Action :=
  [Action.mainRecv, Action.collForward 0, Action.workerWake 1, Action.workerWake 0,
   Action.workerStop 0, Action.workerStop 1, Action.collStop 0, Action.collStop 1,
   Action.mergeClose, Action.mainRecv, Action.mainRecv, Action.mainStop]

/-- Lane `0` at the end of `jamRun ++ drainRun`: its worker received and
forwarded `1` and `3` and has returned. -/
def drainedLane : Lane :=
  ⟨WorkerPc.done, CollPc.done, 2,
    [WorkerEv.recv 1, WorkerEv.send 1, WorkerEv.recv 3, WorkerEv.send 3, WorkerEv.close]⟩

/-- The state `jamRun ++ drainRun` ends in. -/
def drainedState : State where
  ctxDone := true
  gen := GenPc.done
  i := 4
  inputSum := 6
  inputCount := 3
  lanes :=
    [drainedLane,
     ⟨WorkerPc.done, CollPc.done, 1,
        [WorkerEv.recv 2, WorkerEv.send 2, WorkerEv.close]⟩]
  chOut := []
  chOutClosed := true
  wg := 0
  mergerDone := true
  main := MainPc.finished
  count := 3
  sum := 6
  panicked := false
  genLog := [GenEv.send 1, GenEv.call 1, GenEv.send 2, GenEv.call 2, GenEv.send 3,
    GenEv.call 3, GenEv.close]
  got := [1, 2, 3]

/-! ## A run in which the context expires before anything is sent -/

/-- The context expires first; `Generator` returns without sending and the
close propagates to `main`. -/
def emptyRun : List Action :=
  [Action.timeout, Action.genStop, Action.workerStop 0, Action.collStop 0,
   Action.mergeClose, Action.mainStop]

/-- The state `emptyRun` ends in. -/
def emptyFinal : State where
  ctxDone := true
  gen := GenPc.done
  i := 1
  inputSum := 0
  inputCount := 0
  lanes := [⟨WorkerPc.done, CollPc.done, 0, [WorkerEv.close]⟩]
  chOut := []
  chOutClosed := true
  wg := 0
  mergerDone := true
  main := MainPc.finished
  count := 0
  sum := 0
  panicked := false
  genLog := [GenEv.close]
  got := []

/-! ## Remaining work -/

/-- The steps `Generator` still has to take once it sends no more. -/
def GenPc.rank : GenPc → Nat
  | GenPc.called => 2
  | GenPc.select => 1
  | GenPc.done => 0

/-- A bound on the steps a `Worker` still causes once it receives no more. -/
def WorkerPc.rank : WorkerPc → Nat
  | WorkerPc.hold _ => 10
  | WorkerPc.sleep => 3
  | WorkerPc.recv => 2
  | WorkerPc.done => 0

/-- A bound on the steps a collector still causes for the value it holds. -/
def CollPc.rank : CollPc → Nat
  | CollPc.got _ => 6
  | CollPc.fwd _ => 4
  | CollPc.recv => 1
  | CollPc.done => 0

/-- The bound for a lane. -/
def Lane.rank (l : Lane) : Nat := l.w.rank + l.c.rank

/-- A bound on the number of steps the pipeline can still take when
`Generator` sends no further value.  Every step except `genSend` lowers it. -/
def State.rank (s : State) : Nat :=
  (if s.ctxDone then 0 else 1) + s.gen.rank + (s.lanes.map Lane.rank).sum +
    2 * s.chOut.length + (if s.mergerDone then 0 else 1) +
    (if s.main = MainPc.finished then 0 else 1)
/-! ## Theorems -/

theorem demoRun_reaches : run 1 (init 1) demoRun = some demoFinal := by
  decide

theorem demoFinal_reachable : Reachable 1 demoFinal := ⟨demoRun, demoRun_reaches⟩

theorem emptyRun_reaches : run 1 (init 1) emptyRun = some emptyFinal := by
  decide

theorem emptyFinal_reachable : Reachable 1 emptyFinal := ⟨emptyRun, emptyRun_reaches⟩

theorem emptyFinal_terminated : emptyFinal.terminated := rfl

theorem jamRun_reaches : run 2 (init 2) jamRun = some jamState := by
  decide

theorem jamState_reachable : Reachable 2 jamState := ⟨jamRun, jamRun_reaches⟩

theorem drainRun_reaches : run 2 jamState drainRun = some drainedState := by
  decide

theorem fullRun_reaches : run 2 (init 2) (jamRun ++ drainRun) = some drainedState := by
  decide

theorem drainedState_reachable : Reachable 2 drainedState :=
  ⟨jamRun ++ drainRun, fullRun_reaches⟩

/-! ## Case analysis of a step -/

/-- Every enabled step is one of sixteen cases; three of them are panics. -/
theorem step_cases {cap : Nat} {s t : State} {a : Action}
    {motive : Action → State → Prop}
    (h : step cap s a = some t)
    (timeout : s.panicked = false → s.ctxDone = false →
      motive Action.timeout { s with ctxDone := true })
    (genSend : ∀ k l, s.panicked = false → s.gen = GenPc.select → s.lanes[k]? = some l →
      l.w = WorkerPc.recv →
      motive (Action.genSend k) { s with
        gen := GenPc.called
        lanes := s.lanes.set k
          { l with w := WorkerPc.hold s.i, wLog := l.wLog ++ [WorkerEv.recv s.i] }
        genLog := s.genLog ++ [GenEv.send s.i] })
    (genCall : s.panicked = false → s.gen = GenPc.called →
      motive Action.genCall { s with
        gen := GenPc.select
        inputSum := wrap64 (s.inputSum + s.i)
        inputCount := wrap64 (s.inputCount + 1)
        i := wrap64 (s.i + 1)
        genLog := s.genLog ++ [GenEv.call s.i] })
    (genStop : s.panicked = false → s.gen = GenPc.select → s.ctxDone = true →
      motive Action.genStop
        { s with gen := GenPc.done, genLog := s.genLog ++ [GenEv.close] })
    (workerSend : ∀ k l v, s.panicked = false → s.lanes[k]? = some l →
      l.w = WorkerPc.hold v → l.c = CollPc.recv →
      motive (Action.workerSend k) { s with
        lanes := s.lanes.set k
          { l with w := WorkerPc.sleep, c := CollPc.got v,
                   wLog := l.wLog ++ [WorkerEv.send v] } })
    (workerWake : ∀ k l, s.panicked = false → s.lanes[k]? = some l →
      l.w = WorkerPc.sleep →
      motive (Action.workerWake k)
        { s with lanes := s.lanes.set k { l with w := WorkerPc.recv } })
    (workerStop : ∀ k l, s.panicked = false → s.lanes[k]? = some l →
      l.w = WorkerPc.recv → s.gen = GenPc.done →
      motive (Action.workerStop k) { s with
        lanes := s.lanes.set k
          { l with w := WorkerPc.done, wLog := l.wLog ++ [WorkerEv.close] } })
    (collTally : ∀ k l v, s.panicked = false → s.lanes[k]? = some l →
      l.c = CollPc.got v →
      motive (Action.collTally k) { s with
        lanes := s.lanes.set k
          { l with c := CollPc.fwd v, amount := wrap64 (l.amount + 1) } })
    (collForwardPanic : ∀ k l v, s.panicked = false → s.lanes[k]? = some l →
      l.c = CollPc.fwd v → s.chOutClosed = true →
      motive (Action.collForward k) { s with panicked := true })
    (collForward : ∀ k l v, s.panicked = false → s.lanes[k]? = some l →
      l.c = CollPc.fwd v → s.chOutClosed = false → s.chOut.length < cap →
      motive (Action.collForward k) { s with
        lanes := s.lanes.set k { l with c := CollPc.recv }
        chOut := s.chOut ++ [v] })
    (collStopPanic : ∀ k l, s.panicked = false → s.lanes[k]? = some l →
      l.w = WorkerPc.done → l.c = CollPc.recv → s.wg - 1 < 0 →
      motive (Action.collStop k) { s with panicked := true })
    (collStop : ∀ k l, s.panicked = false → s.lanes[k]? = some l →
      l.w = WorkerPc.done → l.c = CollPc.recv → 0 ≤ s.wg - 1 →
      motive (Action.collStop k) { s with
        lanes := s.lanes.set k { l with c := CollPc.done }
        wg := s.wg - 1 })
    (mergeClosePanic : s.panicked = false → s.mergerDone = false → s.wg = 0 →
      s.chOutClosed = true →
      motive Action.mergeClose { s with panicked := true })
    (mergeClose : s.panicked = false → s.mergerDone = false → s.wg = 0 →
      s.chOutClosed = false →
      motive Action.mergeClose { s with chOutClosed := true, mergerDone := true })
    (mainRecv : ∀ v rest, s.panicked = false → s.main = MainPc.reading →
      s.chOut = v :: rest →
      motive Action.mainRecv { s with
        chOut := rest
        count := wrap64 (s.count + 1)
        sum := wrap64 (s.sum + v)
        got := s.got ++ [v] })
    (mainStop : s.panicked = false → s.main = MainPc.reading → s.chOut = [] →
      s.chOutClosed = true →
      motive Action.mainStop { s with main := MainPc.finished }) :
    motive a t := by
  cases a <;> simp only [step] at h <;> repeat' split at h
  all_goals first
    | contradiction
    | skip
  all_goals
    simp only [Option.some.injEq] at h
    subst h
    simp only [Bool.not_eq_true, State.chInClosed, beq_iff_eq, not_lt] at *
  all_goals first
    | (apply timeout <;> assumption)
    | (apply genSend <;> assumption)
    | (apply genCall <;> assumption)
    | (apply genStop <;> assumption)
    | (apply workerSend <;> assumption)
    | (apply workerWake <;> assumption)
    | (apply workerStop <;> assumption)
    | (apply collTally <;> assumption)
    | (apply collForwardPanic <;> assumption)
    | (apply collForward <;> assumption)
    | (apply collStopPanic <;> assumption)
    | (apply collStop <;> assumption)
    | (apply mergeClosePanic <;> assumption)
    | (apply mergeClose <;> assumption)
    | (apply mainRecv <;> assumption)
    | (apply mainStop <;> assumption)

theorem sum_map_set {M : Type} [AddCommMonoid M] (f : Lane → M) :
    ∀ (ls : List Lane) (k : Nat) (l l' : Lane), ls[k]? = some l →
      ((ls.set k l').map f).sum + f l = (ls.map f).sum + f l'
  | [], k, l, l', h => by simp at h
  | x :: xs, 0, l, l', h => by
    simp at h
    subst h
    simp [add_comm, add_left_comm]
  | x :: xs, k + 1, l, l', h => by
    simp only [List.getElem?_cons_succ] at h
    have := sum_map_set f xs k l l' h
    simp only [List.set_cons_succ, List.map_cons, List.sum_cons, add_assoc, this]

theorem forall_mem_set {P : Lane → Prop} {ls : List Lane} {k : Nat} {l' : Lane}
    (h : ∀ x ∈ ls, P x) (h' : P l') : ∀ x ∈ ls.set k l', P x := by
  intro x hx
  rcases List.mem_or_eq_of_mem_set hx with hx | hx
  · exact h x hx
  · exact hx ▸ h'

theorem collActive_nonneg (ls : List Lane) : 0 ≤ (ls.map Lane.collActive).sum := by
  induction ls with
  | nil => simp
  | cons x xs ih =>
    simp only [List.map_cons, List.sum_cons]
    have : 0 ≤ x.collActive := by unfold Lane.collActive; split <;> omega
    omega

theorem collActive_zero : ∀ (ls : List Lane), (ls.map Lane.collActive).sum = 0 →
    ∀ l ∈ ls, l.c = CollPc.done
  | [], _, l, hl => by simp at hl
  | x :: xs, h, l, hl => by
    simp only [List.map_cons, List.sum_cons] at h
    have h1 := collActive_nonneg xs
    have h2 : 0 ≤ x.collActive := by unfold Lane.collActive; split <;> omega
    rcases List.mem_cons.1 hl with rfl | hl
    · by_contra hc
      have : l.collActive = 1 := by simp [Lane.collActive, hc]
      omega
    · exact collActive_zero xs (by omega) l hl

theorem collActive_set {ls : List Lane} {k : Nat} {l l' : Lane} (h : ls[k]? = some l)
    (hc : l'.collActive = l.collActive) :
    ((ls.set k l').map Lane.collActive).sum = (ls.map Lane.collActive).sum := by
  have := sum_map_set Lane.collActive ls k l l' h
  omega

theorem struct_step {N : Nat} {s t : State} {a : Action}
    (hs : Struct N s) (h : step N s a = some t) : Struct N t := by
  obtain ⟨h1, h2, h3, h4, h5, h6, h7, h8, h9⟩ := hs
  have hnn := collActive_nonneg
  apply step_cases (motive := fun _ t => Struct N t) h
  case timeout => intros; exact ⟨h1, h2, h3, h4, h5, h6, h7, h8, h9⟩
  case genCall =>
    intro _ hg
    exact ⟨h1, fun l hl hw => by simpa [hg] using h2 l hl hw, h3, h4, h5, h6, h7, h8, h9⟩
  case genStop =>
    intros
    exact ⟨h1, fun _ _ _ => rfl, h3, h4, h5, h6, h7, h8, h9⟩
  case mergeClosePanic =>
    intro _ hm _ hc
    simp [hm, hc] at h6
  case mergeClose =>
    intro _ hm hw hc
    exact ⟨h1, h2, h3, fun _ => collActive_zero _ (by rw [← h5]; exact hw), h5, rfl,
      fun hf => by simpa [hc] using h7 hf, h8, h9⟩
  case mainRecv =>
    intro v rest _ hm hc
    refine ⟨h1, h2, h3, h4, h5, h6, fun hf => by simp [hm] at hf, h8, ?_⟩
    simp only [hc, List.length_cons] at h9
    show rest.length ≤ N
    omega
  case mainStop =>
    intro _ hm hc hcl
    exact ⟨h1, h2, h3, h4, h5, h6, fun _ => ⟨hcl, hc⟩, h8, h9⟩
  all_goals
    intro k l
    intros
    have hm : l ∈ s.lanes := List.getElem?_mem ‹_›
    have hsum := fun l' => sum_map_set Lane.collActive s.lanes k l l' ‹_›
    have h2l := h2 l hm
    have h3l := h3 l hm
    have h4l := fun hc => h4 hc l hm
  all_goals constructor
  all_goals simp only []
  all_goals first
    | assumption
    | (simp only [List.length_set]; assumption)
    | (refine forall_mem_set h2 ?_; simp_all; done)
    | (refine forall_mem_set h3 ?_; simp_all; done)
    | (exfalso; simp_all; done)
    | (intro hf; have := (h7 hf).1; simp_all; done)
    | (simp only [List.length_append, List.length_singleton]; omega)
    | (refine forall_mem_set (fun x hx hw => ?_) ?_
       · have := h2 x hx hw
         simp_all
       · simp)
    | (refine forall_mem_set h3 (fun hc => ?_)
       have := h3l hc
       simp_all; done)
    | (have e1 := hsum { l with c := CollPc.done }
       have e2 := hnn (s.lanes.set k { l with c := CollPc.done })
       have e3 : l.collActive = 1 := by simp [Lane.collActive, *]
       have e4 : ({ l with c := CollPc.done } : Lane).collActive = 0 := by simp [Lane.collActive]
       first | omega | (exfalso; omega))
    | (intro hc; refine forall_mem_set (h4 hc) ?_; simp_all; done)
    | (rw [h5]; symm; apply collActive_set ‹_›; simp [Lane.collActive, *]; done)

/-- The case analysis of a step from a state that satisfies the structural
invariant: the three panics do not occur. -/
theorem step_cases_ok {N : Nat} {s t : State} {a : Action}
    {motive : Action → State → Prop}
    (hs : Struct N s) (h : step N s a = some t)
    (timeout : s.ctxDone = false →
      motive Action.timeout { s with ctxDone := true })
    (genSend : ∀ k l, s.gen = GenPc.select → s.lanes[k]? = some l →
      l.w = WorkerPc.recv →
      motive (Action.genSend k) { s with
        gen := GenPc.called
        lanes := s.lanes.set k
          { l with w := WorkerPc.hold s.i, wLog := l.wLog ++ [WorkerEv.recv s.i] }
        genLog := s.genLog ++ [GenEv.send s.i] })
    (genCall : s.gen = GenPc.called →
      motive Action.genCall { s with
        gen := GenPc.select
        inputSum := wrap64 (s.inputSum + s.i)
        inputCount := wrap64 (s.inputCount + 1)
        i := wrap64 (s.i + 1)
        genLog := s.genLog ++ [GenEv.call s.i] })
    (genStop : s.gen = GenPc.select → s.ctxDone = true →
      motive Action.genStop
        { s with gen := GenPc.done, genLog := s.genLog ++ [GenEv.close] })
    (workerSend : ∀ k l v, s.lanes[k]? = some l →
      l.w = WorkerPc.hold v → l.c = CollPc.recv →
      motive (Action.workerSend k) { s with
        lanes := s.lanes.set k
          { l with w := WorkerPc.sleep, c := CollPc.got v,
                   wLog := l.wLog ++ [WorkerEv.send v] } })
    (workerWake : ∀ k l, s.lanes[k]? = some l →
      l.w = WorkerPc.sleep →
      motive (Action.workerWake k)
        { s with lanes := s.lanes.set k { l with w := WorkerPc.recv } })
    (workerStop : ∀ k l, s.lanes[k]? = some l →
      l.w = WorkerPc.recv → s.gen = GenPc.done →
      motive (Action.workerStop k) { s with
        lanes := s.lanes.set k
          { l with w := WorkerPc.done, wLog := l.wLog ++ [WorkerEv.close] } })
    (collTally : ∀ k l v, s.lanes[k]? = some l →
      l.c = CollPc.got v →
      motive (Action.collTally k) { s with
        lanes := s.lanes.set k
          { l with c := CollPc.fwd v, amount := wrap64 (l.amount + 1) } })
    (collForward : ∀ k l v, s.lanes[k]? = some l →
      l.c = CollPc.fwd v → s.chOutClosed = false → s.chOut.length < N →
      motive (Action.collForward k) { s with
        lanes := s.lanes.set k { l with c := CollPc.recv }
        chOut := s.chOut ++ [v] })
    (collStop : ∀ k l, s.lanes[k]? = some l →
      l.w = WorkerPc.done → l.c = CollPc.recv →
      motive (Action.collStop k) { s with
        lanes := s.lanes.set k { l with c := CollPc.done }
        wg := s.wg - 1 })
    (mergeClose : s.mergerDone = false → s.wg = 0 → s.chOutClosed = false →
      motive Action.mergeClose { s with chOutClosed := true, mergerDone := true })
    (mainRecv : ∀ v rest, s.main = MainPc.reading → s.chOut = v :: rest →
      motive Action.mainRecv { s with
        chOut := rest
        count := wrap64 (s.count + 1)
        sum := wrap64 (s.sum + v)
        got := s.got ++ [v] })
    (mainStop : s.main = MainPc.reading → s.chOut = [] → s.chOutClosed = true →
      motive Action.mainStop { s with main := MainPc.finished }) :
    motive a t := by
  have ht := struct_step hs h
  revert ht
  apply step_cases (motive := fun a t => Struct N t → motive a t) h
  case collForwardPanic => intro _ _ _ _ _ _ _ ht; exact absurd ht.noPanic (by simp)
  case collStopPanic => intro _ _ _ _ _ _ _ ht; exact absurd ht.noPanic (by simp)
  case mergeClosePanic => intro _ _ _ _ ht; exact absurd ht.noPanic (by simp)
  case timeout => intro _ h1 _; exact timeout h1
  case genSend => intro k l _ h1 h2 h3 _; exact genSend k l h1 h2 h3
  case genCall => intro _ h1 _; exact genCall h1
  case genStop => intro _ h1 h2 _; exact genStop h1 h2
  case workerSend => intro k l v _ h1 h2 h3 _; exact workerSend k l v h1 h2 h3
  case workerWake => intro k l _ h1 h2 _; exact workerWake k l h1 h2
  case workerStop => intro k l _ h1 h2 h3 _; exact workerStop k l h1 h2 h3
  case collTally => intro k l v _ h1 h2 _; exact collTally k l v h1 h2
  case collForward => intro k l v _ h1 h2 h3 h4 _; exact collForward k l v h1 h2 h3 h4
  case collStop => intro k l _ h1 h2 h3 _ _; exact collStop k l h1 h2 h3
  case mergeClose => intro _ h1 h2 h3 _; exact mergeClose h1 h2 h3
  case mainRecv => intro v rest _ h1 h2 _; exact mainRecv v rest h1 h2
  case mainStop => intro _ h1 h2 h3 _; exact mainStop h1 h2 h3

/-! ## `int64` arithmetic -/

theorem wrap64_inRange (x : Int) : InRange (wrap64 x) := by
  unfold InRange wrap64; omega

theorem wrap64_of_inRange {x : Int} (h : InRange x) : wrap64 x = x := by
  unfold InRange at h; unfold wrap64; omega

theorem wrap64_add_left (a b : Int) : wrap64 (wrap64 a + b) = wrap64 (a + b) := by
  unfold wrap64; omega

theorem wrap64_add_right (a b : Int) : wrap64 (a + wrap64 b) = wrap64 (a + b) := by
  unfold wrap64; omega

theorem gauss_succ (n : Nat) : gauss (n + 1) = gauss n + (n + 1) := by
  unfold gauss
  have h : (n + 1) * (n + 1 + 1) = n * (n + 1) + 2 * (n + 1) := by ring
  rw [h, Nat.add_mul_div_left _ _ (by decide : 0 < 2)]

/-! ## Histories -/

theorem sends_genPrefix (n : Nat) : sends (genPrefix n) = seqTo n := by
  induction n with
  | zero => rfl
  | succ n ih =>
    simp only [genPrefix, sends, seqTo, List.filterMap_append, List.range_succ,
      List.map_append] at ih ⊢
    rw [ih]
    simp [GenEv.sendVal]

theorem workerPrefix_append (vs : List Int) (v : Int) :
    workerPrefix (vs ++ [v]) = workerPrefix vs ++ [WorkerEv.recv v, WorkerEv.send v] := by
  induction vs with
  | nil => rfl
  | cons x xs ih => simp [workerPrefix, ih]
theorem calls_snoc_send (log : List GenEv) (v : Int) :
    calls (log ++ [GenEv.send v]) = calls log := by
  simp [calls, List.filterMap_append, GenEv.callVal]

theorem calls_snoc_call (log : List GenEv) (v : Int) :
    calls (log ++ [GenEv.call v]) = calls log ++ [v] := by
  simp [calls, List.filterMap_append, GenEv.callVal]

theorem calls_snoc_close (log : List GenEv) :
    calls (log ++ [GenEv.close]) = calls log := by
  simp [calls, List.filterMap_append, GenEv.callVal]

theorem sends_snoc_send (log : List GenEv) (v : Int) :
    sends (log ++ [GenEv.send v]) = sends log ++ [v] := by
  simp [sends, List.filterMap_append, GenEv.sendVal]

theorem sends_snoc_call (log : List GenEv) (v : Int) :
    sends (log ++ [GenEv.call v]) = sends log := by
  simp [sends, List.filterMap_append, GenEv.sendVal]

theorem sends_snoc_close (log : List GenEv) :
    sends (log ++ [GenEv.close]) = sends log := by
  simp [sends, List.filterMap_append, GenEv.sendVal]

theorem gen_step {N : Nat} {s t : State} {a : Action}
    (hs : Struct N s) (hg : GenInv s) (h : step N s a = some t) : GenInv t := by
  obtain ⟨g1, g2, g3, g4, g5⟩ := hg
  apply step_cases_ok (motive := fun _ t => GenInv t) hs h
  case genSend =>
    intro k l hgen _ _
    rw [hgen] at g1
    simp only [genTail, List.append_nil] at g1
    refine ⟨?_, ?_, ?_, ?_, fun hd => by simp at hd⟩
    · show s.genLog ++ [GenEv.send s.i] = _
      rw [calls_snoc_send, ← g1]
      rfl
    · show s.i = _
      rw [calls_snoc_send]; exact g2
    · show s.inputCount = _
      rw [calls_snoc_send]; exact g3
    · show s.inputSum = _
      rw [calls_snoc_send]; exact g4
  case genCall =>
    intro hgen
    rw [hgen] at g1
    simp only [genTail] at g1
    refine ⟨?_, ?_, ?_, ?_, fun hd => by simp at hd⟩
    · show s.genLog ++ [GenEv.call s.i] = _
      rw [calls_snoc_call, List.length_append, List.length_singleton]
      simp only [genPrefix, genTail, List.append_nil]
      conv_lhs => rw [g1]
      rw [List.append_assoc, List.singleton_append, g2]
    · show wrap64 (s.i + 1) = _
      rw [calls_snoc_call, List.length_append, List.length_singleton, g2]
      simp only [Nat.cast_add, Nat.cast_one]
      exact wrap64_add_left _ _
    · show wrap64 (s.inputCount + 1) = _
      rw [calls_snoc_call, List.length_append, List.length_singleton, g3]
      simp only [Nat.cast_add, Nat.cast_one]
      exact wrap64_add_left _ _
    · show wrap64 (s.inputSum + s.i) = _
      rw [calls_snoc_call, List.length_append, List.length_singleton, g4, g2, gauss_succ]
      simp only [Nat.cast_add, Nat.cast_one]
      rw [wrap64_add_left, wrap64_add_right]
  case genStop =>
    intro hgen hctx
    rw [hgen] at g1
    simp only [genTail, List.append_nil] at g1
    refine ⟨?_, ?_, ?_, ?_, fun _ => hctx⟩
    · show s.genLog ++ [GenEv.close] = _
      rw [calls_snoc_close, ← g1]
      rfl
    · show s.i = _
      rw [calls_snoc_close]; exact g2
    · show s.inputCount = _
      rw [calls_snoc_close]; exact g3
    · show s.inputSum = _
      rw [calls_snoc_close]; exact g4
  case timeout => intro _; exact ⟨g1, g2, g3, g4, fun _ => rfl⟩
  all_goals
    intros
    exact ⟨g1, g2, g3, g4, g5⟩
theorem forwarded_snoc_recv (log : List WorkerEv) (v : Int) :
    forwarded (log ++ [WorkerEv.recv v]) = forwarded log := by
  simp [forwarded, List.filterMap_append, WorkerEv.sendVal]

theorem forwarded_snoc_send (log : List WorkerEv) (v : Int) :
    forwarded (log ++ [WorkerEv.send v]) = forwarded log ++ [v] := by
  simp [forwarded, List.filterMap_append, WorkerEv.sendVal]

theorem forwarded_snoc_close (log : List WorkerEv) :
    forwarded (log ++ [WorkerEv.close]) = forwarded log := by
  simp [forwarded, List.filterMap_append, WorkerEv.sendVal]

theorem received_snoc_recv (log : List WorkerEv) (v : Int) :
    received (log ++ [WorkerEv.recv v]) = received log ++ [v] := by
  simp [received, List.filterMap_append, WorkerEv.recvVal]

theorem received_snoc_send (log : List WorkerEv) (v : Int) :
    received (log ++ [WorkerEv.send v]) = received log := by
  simp [received, List.filterMap_append, WorkerEv.recvVal]

theorem received_snoc_close (log : List WorkerEv) :
    received (log ++ [WorkerEv.close]) = received log := by
  simp [received, List.filterMap_append, WorkerEv.recvVal]

theorem lane_step {N : Nat} {s t : State} {a : Action}
    (hs : Struct N s) (hl : ∀ l ∈ s.lanes, LaneInv l) (h : step N s a = some t) :
    ∀ l ∈ t.lanes, LaneInv l := by
  apply step_cases_ok (motive := fun _ t => ∀ l ∈ t.lanes, LaneInv l) hs h
  case genSend =>
    intro k l _ hk hw
    obtain ⟨l1, l2⟩ := hl l (List.getElem?_mem hk)
    rw [hw] at l1
    simp only [workerTail, List.append_nil] at l1
    refine forall_mem_set hl ⟨?_, ?_⟩
    · show l.wLog ++ [WorkerEv.recv s.i] = _
      rw [forwarded_snoc_recv, ← l1]
      rfl
    · show l.amount = _
      simp only [Lane.fwdCount, forwarded_snoc_recv]
      exact l2
  case workerSend =>
    intro k l v hk hw hc
    obtain ⟨l1, l2⟩ := hl l (List.getElem?_mem hk)
    rw [hw] at l1
    simp only [workerTail] at l1
    simp only [Lane.pendingTally, Lane.fwdCount, hc, CollPc.pending] at l2
    refine forall_mem_set hl ⟨?_, ?_⟩
    · show l.wLog ++ [WorkerEv.send v] = _
      rw [forwarded_snoc_send, workerPrefix_append]
      conv_lhs => rw [l1]
      simp [workerTail]
    · show l.amount = _
      simp only [Lane.fwdCount, forwarded_snoc_send, Lane.pendingTally, CollPc.pending, l2,
        List.length_append, List.length_singleton, Nat.cast_add, Nat.cast_one]
      congr 1
      omega
  case workerWake =>
    intro k l hk hw
    obtain ⟨l1, l2⟩ := hl l (List.getElem?_mem hk)
    rw [hw] at l1
    exact forall_mem_set hl ⟨l1, l2⟩
  case workerStop =>
    intro k l hk hw _
    obtain ⟨l1, l2⟩ := hl l (List.getElem?_mem hk)
    rw [hw] at l1
    simp only [workerTail, List.append_nil] at l1
    refine forall_mem_set hl ⟨?_, ?_⟩
    · show l.wLog ++ [WorkerEv.close] = _
      rw [forwarded_snoc_close, ← l1]
      rfl
    · show l.amount = _
      simp only [Lane.fwdCount, forwarded_snoc_close]
      exact l2
  case collTally =>
    intro k l v hk hc
    obtain ⟨l1, l2⟩ := hl l (List.getElem?_mem hk)
    simp only [Lane.pendingTally, Lane.fwdCount, hc, CollPc.pending] at l2
    refine forall_mem_set hl ⟨l1, ?_⟩
    show wrap64 (l.amount + 1) = wrap64 (((forwarded l.wLog).length : Int) - 0)
    rw [l2, wrap64_add_left]
    congr 1
    omega
  case collForward =>
    intro k l v hk hc _ _
    obtain ⟨l1, l2⟩ := hl l (List.getElem?_mem hk)
    simp only [Lane.pendingTally, Lane.fwdCount, hc, CollPc.pending] at l2
    exact forall_mem_set hl ⟨l1, l2⟩
  case collStop =>
    intro k l hk _ hc
    obtain ⟨l1, l2⟩ := hl l (List.getElem?_mem hk)
    simp only [Lane.pendingTally, Lane.fwdCount, hc, CollPc.pending] at l2
    exact forall_mem_set hl ⟨l1, l2⟩
  all_goals
    intros
    exact hl _ ‹_›
theorem count_snoc (xs : List Int) (x v : Int) :
    (xs ++ [x]).count v = xs.count v + if x = v then 1 else 0 := by
  simp [List.count_append, List.count_cons]

theorem count_cons_int (xs : List Int) (x v : Int) :
    (x :: xs).count v = xs.count v + if x = v then 1 else 0 := by
  simp [List.count_cons]

theorem count_single (x v : Int) : [x].count v = if x = v then 1 else 0 := by
  simp [List.count_cons]

theorem flow_step {N : Nat} {s t : State} {a : Action}
    (hs : Struct N s) (hf : FlowInv s) (h : step N s a = some t) : FlowInv t := by
  obtain ⟨f1, f5, f2, f3, f4⟩ := hf
  apply step_cases_ok (motive := fun _ t => FlowInv t) hs h
  case genSend =>
    intro k l _ hk hw
    have ev := fun v => sum_map_set (Lane.heldCount v) s.lanes k l
      { l with w := WorkerPc.hold s.i, wLog := l.wLog ++ [WorkerEv.recv s.i] } hk
    have er := fun v => sum_map_set (Lane.recvCount v) s.lanes k l
      { l with w := WorkerPc.hold s.i, wLog := l.wLog ++ [WorkerEv.recv s.i] } hk
    have ef := sum_map_set Lane.fwdCount s.lanes k l
      { l with w := WorkerPc.hold s.i, wLog := l.wLog ++ [WorkerEv.recv s.i] } hk
    have ec := sum_map_set Lane.collHolding s.lanes k l
      { l with w := WorkerPc.hold s.i, wLog := l.wLog ++ [WorkerEv.recv s.i] } hk
    simp only [Lane.heldCount, Lane.recvCount, Lane.fwdCount, Lane.held, Lane.collHolding, hw, WorkerPc.held,
      forwarded_snoc_recv, received_snoc_recv, count_snoc, List.count_append, count_single, List.count_nil] at ev er ef ec
    refine ⟨fun v => ?_, fun v => ?_, ?_, f3, f4⟩
    · show (sends (s.genLog ++ [GenEv.send s.i])).count v = _
      have e1 := ev v
      have e2 := f1 v
      simp only [sends_snoc_send, count_snoc]
      omega
    · show (sends (s.genLog ++ [GenEv.send s.i])).count v = _
      have e1 := er v
      have e2 := f5 v
      simp only [sends_snoc_send, count_snoc]
      omega
    · dsimp only
      omega
  case workerSend =>
    intro k l x hk hw hc
    have ev := fun v => sum_map_set (Lane.heldCount v) s.lanes k l
      { l with w := WorkerPc.sleep, c := CollPc.got x, wLog := l.wLog ++ [WorkerEv.send x] } hk
    have er := fun v => sum_map_set (Lane.recvCount v) s.lanes k l
      { l with w := WorkerPc.sleep, c := CollPc.got x, wLog := l.wLog ++ [WorkerEv.send x] } hk
    have ef := sum_map_set Lane.fwdCount s.lanes k l
      { l with w := WorkerPc.sleep, c := CollPc.got x, wLog := l.wLog ++ [WorkerEv.send x] } hk
    have ec := sum_map_set Lane.collHolding s.lanes k l
      { l with w := WorkerPc.sleep, c := CollPc.got x, wLog := l.wLog ++ [WorkerEv.send x] } hk
    simp only [Lane.heldCount, Lane.recvCount, Lane.fwdCount, Lane.held, Lane.collHolding, WorkerPc.held,
      CollPc.held, CollPc.holding, List.count_append, count_single, List.count_nil,
      List.length_append, List.length_singleton, hw, hc, forwarded_snoc_send, received_snoc_send] at ev er ef ec
    refine ⟨fun v => ?_, fun v => ?_, ?_, f3, f4⟩
    · have e1 := ev v
      have e2 := f1 v
      dsimp only
      try simp only [count_snoc]
      omega
    · have e1 := er v
      have e2 := f5 v
      dsimp only
      omega
    · dsimp only
      try simp only [List.length_append, List.length_singleton]
      omega
  case workerWake =>
    intro k l hk hw
    have ev := fun v => sum_map_set (Lane.heldCount v) s.lanes k l
      { l with w := WorkerPc.recv } hk
    have er := fun v => sum_map_set (Lane.recvCount v) s.lanes k l
      { l with w := WorkerPc.recv } hk
    have ef := sum_map_set Lane.fwdCount s.lanes k l
      { l with w := WorkerPc.recv } hk
    have ec := sum_map_set Lane.collHolding s.lanes k l
      { l with w := WorkerPc.recv } hk
    simp only [Lane.heldCount, Lane.recvCount, Lane.fwdCount, Lane.held, Lane.collHolding, WorkerPc.held,
      CollPc.held, CollPc.holding, List.count_append, count_single, List.count_nil,
      List.length_append, List.length_singleton, hw] at ev er ef ec
    refine ⟨fun v => ?_, fun v => ?_, ?_, f3, f4⟩
    · have e1 := ev v
      have e2 := f1 v
      dsimp only
      try simp only [count_snoc]
      omega
    · have e1 := er v
      have e2 := f5 v
      dsimp only
      omega
    · dsimp only
      try simp only [List.length_append, List.length_singleton]
      omega
  case workerStop =>
    intro k l hk hw _
    have ev := fun v => sum_map_set (Lane.heldCount v) s.lanes k l
      { l with w := WorkerPc.done, wLog := l.wLog ++ [WorkerEv.close] } hk
    have er := fun v => sum_map_set (Lane.recvCount v) s.lanes k l
      { l with w := WorkerPc.done, wLog := l.wLog ++ [WorkerEv.close] } hk
    have ef := sum_map_set Lane.fwdCount s.lanes k l
      { l with w := WorkerPc.done, wLog := l.wLog ++ [WorkerEv.close] } hk
    have ec := sum_map_set Lane.collHolding s.lanes k l
      { l with w := WorkerPc.done, wLog := l.wLog ++ [WorkerEv.close] } hk
    simp only [Lane.heldCount, Lane.recvCount, Lane.fwdCount, Lane.held, Lane.collHolding, WorkerPc.held,
      CollPc.held, CollPc.holding, List.count_append, count_single, List.count_nil,
      List.length_append, List.length_singleton, hw, forwarded_snoc_close, received_snoc_close] at ev er ef ec
    refine ⟨fun v => ?_, fun v => ?_, ?_, f3, f4⟩
    · have e1 := ev v
      have e2 := f1 v
      dsimp only
      try simp only [count_snoc]
      omega
    · have e1 := er v
      have e2 := f5 v
      dsimp only
      omega
    · dsimp only
      try simp only [List.length_append, List.length_singleton]
      omega
  case collTally =>
    intro k l x hk hc
    have ev := fun v => sum_map_set (Lane.heldCount v) s.lanes k l
      { l with c := CollPc.fwd x, amount := wrap64 (l.amount + 1) } hk
    have er := fun v => sum_map_set (Lane.recvCount v) s.lanes k l
      { l with c := CollPc.fwd x, amount := wrap64 (l.amount + 1) } hk
    have ef := sum_map_set Lane.fwdCount s.lanes k l
      { l with c := CollPc.fwd x, amount := wrap64 (l.amount + 1) } hk
    have ec := sum_map_set Lane.collHolding s.lanes k l
      { l with c := CollPc.fwd x, amount := wrap64 (l.amount + 1) } hk
    simp only [Lane.heldCount, Lane.recvCount, Lane.fwdCount, Lane.held, Lane.collHolding, WorkerPc.held,
      CollPc.held, CollPc.holding, List.count_append, count_single, List.count_nil,
      List.length_append, List.length_singleton, hc] at ev er ef ec
    refine ⟨fun v => ?_, fun v => ?_, ?_, f3, f4⟩
    · have e1 := ev v
      have e2 := f1 v
      dsimp only
      try simp only [count_snoc]
      omega
    · have e1 := er v
      have e2 := f5 v
      dsimp only
      omega
    · dsimp only
      try simp only [List.length_append, List.length_singleton]
      omega
  case collForward =>
    intro k l x hk hc _ _
    have ev := fun v => sum_map_set (Lane.heldCount v) s.lanes k l
      { l with c := CollPc.recv } hk
    have er := fun v => sum_map_set (Lane.recvCount v) s.lanes k l
      { l with c := CollPc.recv } hk
    have ef := sum_map_set Lane.fwdCount s.lanes k l
      { l with c := CollPc.recv } hk
    have ec := sum_map_set Lane.collHolding s.lanes k l
      { l with c := CollPc.recv } hk
    simp only [Lane.heldCount, Lane.recvCount, Lane.fwdCount, Lane.held, Lane.collHolding, WorkerPc.held,
      CollPc.held, CollPc.holding, List.count_append, count_single, List.count_nil,
      List.length_append, List.length_singleton, hc] at ev er ef ec
    refine ⟨fun v => ?_, fun v => ?_, ?_, f3, f4⟩
    · have e1 := ev v
      have e2 := f1 v
      dsimp only
      try simp only [count_snoc]
      omega
    · have e1 := er v
      have e2 := f5 v
      dsimp only
      omega
    · dsimp only
      try simp only [List.length_append, List.length_singleton]
      omega
  case collStop =>
    intro k l hk _ hc
    have ev := fun v => sum_map_set (Lane.heldCount v) s.lanes k l
      { l with c := CollPc.done } hk
    have er := fun v => sum_map_set (Lane.recvCount v) s.lanes k l
      { l with c := CollPc.done } hk
    have ef := sum_map_set Lane.fwdCount s.lanes k l
      { l with c := CollPc.done } hk
    have ec := sum_map_set Lane.collHolding s.lanes k l
      { l with c := CollPc.done } hk
    simp only [Lane.heldCount, Lane.recvCount, Lane.fwdCount, Lane.held, Lane.collHolding, WorkerPc.held,
      CollPc.held, CollPc.holding, List.count_append, count_single, List.count_nil,
      List.length_append, List.length_singleton, hc] at ev er ef ec
    refine ⟨fun v => ?_, fun v => ?_, ?_, f3, f4⟩
    · have e1 := ev v
      have e2 := f1 v
      dsimp only
      try simp only [count_snoc]
      omega
    · have e1 := er v
      have e2 := f5 v
      dsimp only
      omega
    · dsimp only
      try simp only [List.length_append, List.length_singleton]
      omega
  case mainRecv =>
    intro x rest _ hc
    rw [hc] at f1 f2
    refine ⟨fun v => ?_, f5, ?_, ?_, ?_⟩
    · have e2 := f1 v
      dsimp only
      simp only [count_snoc, count_cons_int] at e2 ⊢
      omega
    · dsimp only
      simp only [List.length_append, List.length_singleton, List.length_cons, List.length_nil] at f2 ⊢
      omega
    · show wrap64 (s.count + 1) = wrap64 ((s.got ++ [x]).length : Int)
      rw [f3, wrap64_add_left, List.length_append, List.length_singleton]
      simp only [Nat.cast_add, Nat.cast_one]
    · show wrap64 (s.sum + x) = wrap64 (s.got ++ [x]).sum
      rw [f4, wrap64_add_left, List.sum_append, List.sum_singleton]
  case genCall =>
    intro _
    refine ⟨fun v => ?_, fun v => ?_, f2, f3, f4⟩
    · show (sends (s.genLog ++ [GenEv.call s.i])).count v = _
      rw [sends_snoc_call]
      exact f1 v
    · show (sends (s.genLog ++ [GenEv.call s.i])).count v = _
      rw [sends_snoc_call]
      exact f5 v
  case genStop =>
    intro _ _
    refine ⟨fun v => ?_, fun v => ?_, f2, f3, f4⟩
    · show (sends (s.genLog ++ [GenEv.close])).count v = _
      rw [sends_snoc_close]
      exact f1 v
    · show (sends (s.genLog ++ [GenEv.close])).count v = _
      rw [sends_snoc_close]
      exact f5 v
  all_goals
    intros
    exact ⟨f1, f5, f2, f3, f4⟩
/-! ## The invariant holds in every reachable state -/

theorem sum_map_replicate {M : Type} [AddCommMonoid M] (f : Lane → M) (l : Lane) (h : f l = 0) :
    ∀ n : Nat, ((List.replicate n l).map f).sum = 0
  | 0 => rfl
  | n + 1 => by
    simp only [List.replicate_succ, List.map_cons, List.sum_cons, h, zero_add]
    exact sum_map_replicate f l h n

theorem collActive_replicate : ∀ n : Nat,
    ((List.replicate n Lane.init).map Lane.collActive).sum = n
  | 0 => rfl
  | n + 1 => by
    simp only [List.replicate_succ, List.map_cons, List.sum_cons, collActive_replicate n]
    have : Lane.init.collActive = 1 := by decide
    rw [this]
    push_cast
    omega

theorem gauss_zero : gauss 0 = 0 := rfl

theorem wrap64_zero : wrap64 0 = 0 := by decide

theorem wrap64_one : wrap64 1 = 1 := by decide

theorem init_inv (N : Nat) : Inv N (init N) := by
  have hmem : ∀ l ∈ (init N).lanes, l = Lane.init := fun l hl => List.eq_of_mem_replicate hl
  have hc : (calls (init N).genLog).length = 0 := rfl
  have hg : (init N).got = [] := rfl
  refine ⟨⟨rfl, ?_, ?_, ?_, ?_, rfl, ?_, ?_, ?_⟩, ⟨rfl, ?_, ?_, ?_, ?_⟩, ?_, ⟨?_, ?_, ?_, ?_, ?_⟩⟩
  · intro l hl hw
    rw [hmem l hl] at hw
    exact absurd hw (by decide)
  · intro l hl hc
    rw [hmem l hl] at hc
    exact absurd hc (by decide)
  · intro hc
    exact absurd hc (by simp [init])
  · exact (collActive_replicate N).symm
  · intro hm
    exact absurd hm (by simp [init])
  · exact List.length_replicate N Lane.init
  · exact Nat.zero_le N
  · rw [hc, Nat.cast_zero, zero_add]
    exact wrap64_one.symm
  · rw [hc, Nat.cast_zero]
    exact wrap64_zero.symm
  · rw [hc, gauss_zero, Nat.cast_zero]
    exact wrap64_zero.symm
  · intro hg
    exact absurd hg (by simp [init])
  · intro l hl
    rw [hmem l hl]
    exact ⟨rfl, wrap64_zero.symm⟩
  · intro v
    show 0 = 0 + 0 + ((List.replicate N Lane.init).map (Lane.heldCount v)).sum
    rw [sum_map_replicate (Lane.heldCount v) Lane.init rfl]
    rfl
  · intro v
    show 0 = ((List.replicate N Lane.init).map (Lane.recvCount v)).sum
    rw [sum_map_replicate (Lane.recvCount v) Lane.init rfl]
  · show ((List.replicate N Lane.init).map Lane.fwdCount).sum =
      0 + 0 + ((List.replicate N Lane.init).map Lane.collHolding).sum
    rw [sum_map_replicate Lane.fwdCount Lane.init rfl,
      sum_map_replicate Lane.collHolding Lane.init rfl]
    rfl
  · rw [hg, List.length_nil, Nat.cast_zero]
    exact wrap64_zero.symm
  · rw [hg, List.sum_nil]
    exact wrap64_zero.symm

theorem inv_step {N : Nat} {s t : State} {a : Action}
    (hi : Inv N s) (h : step N s a = some t) : Inv N t :=
  ⟨struct_step hi.struct h, gen_step hi.struct hi.gen h, lane_step hi.struct hi.lane h,
    flow_step hi.struct hi.flow h⟩

theorem inv_run {N : Nat} : ∀ (acts : List Action) (s t : State),
    Inv N s → run N s acts = some t → Inv N t
  | [], s, t, hi, h => by
    simp only [run, Option.some.injEq] at h
    exact h ▸ hi
  | a :: as, s, t, hi, h => by
    simp only [run] at h
    cases hst : step N s a with
    | none => simp [hst] at h
    | some u =>
      simp only [hst, Option.some_bind] at h
      exact inv_run as u t (inv_step hi hst) h

theorem inv_of_reachable {N : Nat} {s : State} (h : Reachable N s) : Inv N s := by
  obtain ⟨acts, ha⟩ := h
  exact inv_run acts (init N) s (init_inv N) ha

theorem reachable_step {N : Nat} {s t : State} {a : Action}
    (hr : Reachable N s) (h : step N s a = some t) : Reachable N t := by
  obtain ⟨acts, ha⟩ := hr
  refine ⟨acts ++ [a], ?_⟩
  have key : ∀ (as : List Action) (u : State), run N u as = some s →
      run N u (as ++ [a]) = some t := by
    intro as
    induction as with
    | nil =>
      intro u hu
      simp only [run, Option.some.injEq] at hu
      subst hu
      simp [run, h]
    | cons b bs ih =>
      intro u hu
      simp only [run, List.cons_append] at hu ⊢
      cases hb : step N u b with
      | none => simp [hb] at hu
      | some w =>
        simp only [hb, Option.some_bind] at hu ⊢
        exact ih w hu
  exact key acts (init N) ha
/-! ## States in which `main` is past its loop -/

theorem sum_map_zero (f : Lane → Nat) : ∀ ls : List Lane, (∀ l ∈ ls, f l = 0) →
    (ls.map f).sum = 0
  | [], _ => rfl
  | x :: xs, h => by
    simp only [List.map_cons, List.sum_cons, h x (List.mem_cons_self x xs), Nat.zero_add]
    exact sum_map_zero f xs fun l hl => h l (List.mem_cons_of_mem x hl)

theorem terminal_lanes {N : Nat} {s : State} (hi : Inv N s) (ht : s.terminated) :
    ∀ l ∈ s.lanes, l.w = WorkerPc.done ∧ l.c = CollPc.done := by
  intro l hl
  have hc := hi.struct.closed (hi.struct.mainFin ht).1 l hl
  exact ⟨hi.struct.collDone l hl hc, hc⟩

theorem terminal_gen {N : Nat} {s : State} (hi : Inv N s) (hN : 1 ≤ N)
    (ht : s.terminated) : s.gen = GenPc.done := by
  have hlen := hi.struct.len
  cases hls : s.lanes with
  | nil =>
    rw [hls] at hlen
    simp only [List.length_nil] at hlen
    omega
  | cons l ls =>
    have hl : l ∈ s.lanes := hls ▸ List.mem_cons_self l ls
    exact hi.struct.workerDone l hl (terminal_lanes hi ht l hl).1

theorem terminal_perm {N : Nat} {s : State} (hi : Inv N s) (ht : s.terminated) :
    s.got.Perm (sends s.genLog) := by
  refine List.perm_iff_count.2 fun v => ?_
  have h1 := hi.flow.vals v
  have h2 : (s.lanes.map (Lane.heldCount v)).sum = 0 := by
    refine sum_map_zero _ _ fun l hl => ?_
    obtain ⟨hw, hc⟩ := terminal_lanes hi ht l hl
    simp [Lane.heldCount, Lane.held, hw, hc, WorkerPc.held, CollPc.held]
  rw [(hi.struct.mainFin ht).2, h2] at h1
  simp only [List.count_nil, Nat.add_zero] at h1
  exact h1.symm

theorem sends_of_select {s : State} (hg : GenInv s) (h : s.gen ≠ GenPc.called) :
    sends s.genLog = seqTo (calls s.genLog).length := by
  have h1 := hg.log
  cases hgen : s.gen with
  | called => exact absurd hgen h
  | select =>
    rw [hgen] at h1
    simp only [genTail, List.append_nil] at h1
    conv_lhs => rw [h1]
    exact sends_genPrefix _
  | done =>
    rw [hgen] at h1
    simp only [genTail] at h1
    conv_lhs => rw [h1]
    rw [sends_snoc_close]
    exact sends_genPrefix _

theorem seqTo_length (n : Nat) : (seqTo n).length = n := by
  unfold seqTo
  rw [List.length_map, List.length_range]

theorem seqTo_succ (n : Nat) : seqTo (n + 1) = seqTo n ++ [wrap64 ((n : Int) + 1)] := by
  simp [seqTo, List.range_succ]

theorem seqTo_sum (n : Nat) : wrap64 (seqTo n).sum = wrap64 (gauss n) := by
  induction n with
  | zero => rfl
  | succ n ih =>
    rw [seqTo_succ, List.sum_append, List.sum_singleton, wrap64_add_right, gauss_succ,
      ← wrap64_add_left, ih, wrap64_add_left]
    simp only [Nat.cast_add, Nat.cast_one]

theorem oneTo_succ (n : Nat) : oneTo (n + 1) = oneTo n ++ [(n : Int) + 1] := by
  simp [oneTo, List.range_succ]

theorem seqTo_eq_oneTo (n : Nat) (h : n < 9223372036854775808) : seqTo n = oneTo n := by
  unfold seqTo oneTo
  refine List.map_congr_left fun k hk => ?_
  have hk' : k < n := List.mem_range.1 hk
  exact wrap64_of_inRange ⟨by omega, by omega⟩

/-- C1. Conservation: in every run of a pipeline with `N ≥ 1` workers that
reaches the end of `main`'s loop over `chOut`, `inputCount == count` and
`inputSum == sum`. -/
theorem conservation (N : Nat) (s : State) (hN : 1 ≤ N) (hr : Reachable N s)
    (ht : s.terminated) : s.inputCount = s.count ∧ s.inputSum = s.sum := by
  have hi := inv_of_reachable hr
  have hgen := terminal_gen hi hN ht
  have hp := terminal_perm hi ht
  have hs := sends_of_select hi.gen (by rw [hgen]; decide)
  rw [hs] at hp
  constructor
  · rw [hi.gen.count_eq, hi.flow.count_eq, hp.length_eq, seqTo_length]
  · rw [hi.gen.sum_eq, hi.flow.sum_eq, hp.sum_eq, seqTo_sum]

theorem conservation_witness :
    Reachable 2 drainedState ∧ drainedState.terminated ∧
      drainedState.inputCount = drainedState.count ∧
      drainedState.inputSum = drainedState.sum :=
  ⟨drainedState_reachable, by decide,
    conservation 2 drainedState (by decide) drainedState_reachable (by decide)⟩
theorem wrap64_natCast {n : Nat} (h : n < 9223372036854775808) : wrap64 (n : Int) = n :=
  wrap64_of_inRange ⟨by omega, by omega⟩

/-- C2. Contiguity and zero loss: when `main` is past its loop, the values it
read are, as a multiset, exactly the values sent on `chIn`, which are exactly
the values the workers received, and these are `1, ..., inputCount`, each
once (the values reduced to `int64`; literally `1, ..., inputCount` as long as
fewer than `2^63` values were read). -/
theorem contiguity (N : Nat) (s : State) (hN : 1 ≤ N) (hr : Reachable N s)
    (ht : s.terminated) :
    s.got.Perm (sends s.genLog) ∧
    (∀ v : Int, s.got.count v = (s.lanes.map (Lane.recvCount v)).sum) ∧
    s.got.Perm (seqTo s.got.length) ∧
    (s.got.length < 9223372036854775808 →
      s.inputCount = s.got.length ∧ s.got.Perm (oneTo s.inputCount.toNat)) := by
  have hi := inv_of_reachable hr
  have hgen := terminal_gen hi hN ht
  have hp := terminal_perm hi ht
  have hs := sends_of_select hi.gen (by rw [hgen]; decide)
  have hlen : s.got.length = (calls s.genLog).length := by
    rw [hp.length_eq, hs, seqTo_length]
  refine ⟨hp, fun v => ?_, ?_, fun hlt => ?_⟩
  · rw [hp.count_eq, hi.flow.recv v]
  · rw [hlen, ← hs]
    exact hp
  · have hc : s.inputCount = s.got.length := by
      rw [hi.gen.count_eq, ← hlen]
      exact wrap64_natCast hlt
    refine ⟨hc, ?_⟩
    rw [hc, Int.toNat_ofNat, ← seqTo_eq_oneTo _ hlt, hlen, ← hs]
    exact hp

theorem contiguity_witness :
    Reachable 2 drainedState ∧ drainedState.terminated ∧
    drainedState.got.Perm (sends drainedState.genLog) ∧
    (∀ v : Int, drainedState.got.count v =
      (drainedState.lanes.map (Lane.recvCount v)).sum) ∧
    drainedState.got.Perm (seqTo drainedState.got.length) ∧
    (drainedState.got.length < 9223372036854775808 →
      drainedState.inputCount = drainedState.got.length ∧
      drainedState.got.Perm (oneTo drainedState.inputCount.toNat)) :=
  ⟨drainedState_reachable, by decide,
    contiguity 2 drainedState (by decide) drainedState_reachable (by decide)⟩

theorem gaussInt64_natCast (n m : Nat) (hm : m = n * (n + 1))
    (hlt : m < 9223372036854775808) :
    gaussInt64 (n : Int) = (m : Int) / 2 ∧ (n : Int) * ((n : Int) + 1) / 2 = (m : Int) / 2 := by
  have h1 : n ≤ m := hm ▸ Nat.le_mul_of_pos_right n (Nat.succ_pos n)
  have hmz : (n : Int) * ((n : Int) + 1) = (m : Int) := by
    rw [hm, Nat.cast_mul, Nat.cast_add, Nat.cast_one]
  have h2 : n = 0 ∨ n + 1 ≤ m := by
    cases n with
    | zero => exact Or.inl rfl
    | succ k => exact Or.inr (hm ▸ Nat.le_mul_of_pos_left (k + 1 + 1) (Nat.succ_pos k))
  clear hm
  have e1 : wrap64 ((n : Int) + 1) = (n : Int) + 1 :=
    wrap64_of_inRange ⟨by omega, by omega⟩
  have e2 : wrap64 (m : Int) = m := wrap64_natCast hlt
  have e3 : wrap64 ((m : Int) / 2) = (m : Int) / 2 :=
    wrap64_of_inRange ⟨by omega, by omega⟩
  have e4 : Int.tdiv (m : Int) 2 = (m : Int) / 2 :=
    Int.tdiv_eq_ediv (Int.ofNat_nonneg m) (by decide)
  constructor
  · unfold gaussInt64
    rw [e1, hmz, e2, e4, e3]
  · rw [hmz]

/-- C4. Gauss identity: with `n` the number of calls of the accounting callback,
`inputCount` is `n` and `inputSum` is `n (n + 1) / 2`, both reduced to `int64`;
when `n (n + 1)` does not overflow, `inputSum == inputCount * (inputCount + 1) / 2`
holds both in exact integer arithmetic and as evaluated in `int64`.  Once
`Generator` has returned, `n` is the number of values it sent. -/
theorem gauss_identity (N : Nat) (s : State) (hr : Reachable N s) :
    s.inputCount = wrap64 (calls s.genLog).length ∧
    s.inputSum = wrap64 ((calls s.genLog).length * ((calls s.genLog).length + 1) / 2 : Nat) ∧
    (s.gen = GenPc.done → (sends s.genLog).length = (calls s.genLog).length) ∧
    ((calls s.genLog).length * ((calls s.genLog).length + 1) < 9223372036854775808 →
      s.inputSum = s.inputCount * (s.inputCount + 1) / 2 ∧
      s.inputSum = gaussInt64 s.inputCount) := by
  have hi := inv_of_reachable hr
  refine ⟨hi.gen.count_eq, hi.gen.sum_eq, fun hd => ?_, fun hlt => ?_⟩
  · rw [sends_of_select hi.gen (by rw [hd]; decide), seqTo_length]
  · have hcount := hi.gen.count_eq
    have hsum := hi.gen.sum_eq
    generalize (calls s.genLog).length = n at hlt hcount hsum
    obtain ⟨m, hm⟩ : ∃ m : Nat, m = n * (n + 1) := ⟨_, rfl⟩
    rw [← hm] at hlt
    have h1 : n ≤ m := hm ▸ Nat.le_mul_of_pos_right n (Nat.succ_pos n)
    obtain ⟨g1, g2⟩ := gaussInt64_natCast n m hm hlt
    have hg : ((gauss n : Nat) : Int) = (m : Int) / 2 := by
      unfold gauss
      rw [← hm]
      rfl
    have hc : s.inputCount = n := by
      rw [hcount]
      exact wrap64_natCast (by omega)
    have hs : s.inputSum = (m : Int) / 2 := by
      rw [hsum, hg]
      exact wrap64_of_inRange ⟨by omega, by omega⟩
    rw [hc, g1, g2]
    exact ⟨hs, hs⟩

theorem gauss_identity_witness :
    Reachable 2 jamState ∧
    jamState.inputSum = jamState.inputCount * (jamState.inputCount + 1) / 2 ∧
    jamState.inputSum = gaussInt64 jamState.inputCount :=
  ⟨jamState_reachable, (gauss_identity 2 jamState jamState_reachable).2.2.2 (by decide)⟩
/-! ## `Generator` -/

theorem calls_genPrefix_eq (n : Nat) : calls (genPrefix n) = seqTo n := by
  induction n with
  | zero => rfl
  | succ n ih =>
    simp only [genPrefix, calls, seqTo, List.filterMap_append, List.range_succ,
      List.map_append] at ih ⊢
    rw [ih]
    simp [GenEv.callVal]

theorem count_close_genPrefix (n : Nat) : (genPrefix n).count GenEv.close = 0 := by
  induction n with
  | zero => rfl
  | succ n ih =>
    simp only [genPrefix, List.count_append, ih]
    simp [List.count_cons]

theorem sends_of_called {s : State} (hg : GenInv s) (h : s.gen = GenPc.called) :
    sends s.genLog = seqTo (calls s.genLog).length ++ [s.i] := by
  have h1 := hg.log
  rw [h] at h1
  simp only [genTail] at h1
  conv_lhs => rw [h1]
  rw [sends_snoc_send, sends_genPrefix]

theorem calls_eq_seqTo {s : State} (hg : GenInv s) :
    calls s.genLog = seqTo (calls s.genLog).length := by
  have h1 := hg.log
  conv_lhs => rw [h1]
  cases hgen : s.gen with
  | select => simp only [genTail, List.append_nil]; exact calls_genPrefix_eq _
  | called => simp only [genTail]; rw [calls_snoc_send]; exact calls_genPrefix_eq _
  | done => simp only [genTail]; rw [calls_snoc_close]; exact calls_genPrefix_eq _

/-- C3. Generator contract: in every reachable state there is an `n` such that
the history of `Generator` is `ch <- 1, fn(1), ..., ch <- n, fn(n)` followed by
nothing (at the `select`), by the accepted send `ch <- n + 1` whose `fn` call is
still due, or by the single `close(ch)` (returned).  So the values sent are
`1, ..., n` in order (plus the pending one), `fn` is called exactly with the
values already sent, in order, each call after its send and before the next
send; `ch` is closed at most once, at the very end, and only with `ctx.Done`
closed.  All values are reduced to `int64`; they are literally `1, ..., n` when
`n < 2^63`. -/
theorem generator_contract (N : Nat) (s : State) (hr : Reachable N s) :
    ∃ n : Nat,
      s.genLog = genPrefix n ++ genTail s.gen s.i ∧
      s.i = wrap64 ((n : Int) + 1) ∧
      calls s.genLog = seqTo n ∧
      (calls s.genLog).IsPrefix (sends s.genLog) ∧
      (s.gen ≠ GenPc.called → sends s.genLog = seqTo n) ∧
      (s.gen = GenPc.called → sends s.genLog = seqTo n ++ [s.i]) ∧
      s.genLog.count GenEv.close = (if s.gen = GenPc.done then 1 else 0) ∧
      (s.gen = GenPc.done → s.ctxDone = true ∧ s.genLog = genPrefix n ++ [GenEv.close]) ∧
      (n < 9223372036854775808 → seqTo n = oneTo n) := by
  have hi := inv_of_reachable hr
  have hg := hi.gen
  have hc := calls_eq_seqTo hg
  refine ⟨(calls s.genLog).length, hg.log, hg.i_eq, hc, ?_, sends_of_select hg,
    sends_of_called hg, ?_, fun hd => ⟨hg.ctx hd, ?_⟩, seqTo_eq_oneTo _⟩
  · cases hgen : s.gen with
    | select =>
      rw [sends_of_select hg (by rw [hgen]; decide), ← hc]
    | done =>
      rw [sends_of_select hg (by rw [hgen]; decide), ← hc]
    | called =>
      rw [sends_of_called hg hgen, ← hc]
      exact List.prefix_append _ _
  · have h1 := hg.log
    generalize (calls s.genLog).length = n at h1
    rw [h1, List.count_append, count_close_genPrefix]
    cases s.gen <;> simp [genTail, List.count_cons]
  · have h1 := hg.log
    rw [hd] at h1
    exact h1

theorem generator_contract_witness :
    Reachable 2 jamState ∧
    ∃ n : Nat,
      jamState.genLog = genPrefix n ++ genTail jamState.gen jamState.i ∧
      jamState.i = wrap64 ((n : Int) + 1) ∧
      calls jamState.genLog = seqTo n ∧
      (calls jamState.genLog).IsPrefix (sends jamState.genLog) ∧
      (jamState.gen ≠ GenPc.called → sends jamState.genLog = seqTo n) ∧
      (jamState.gen = GenPc.called → sends jamState.genLog = seqTo n ++ [jamState.i]) ∧
      jamState.genLog.count GenEv.close = (if jamState.gen = GenPc.done then 1 else 0) ∧
      (jamState.gen = GenPc.done →
        jamState.ctxDone = true ∧ jamState.genLog = genPrefix n ++ [GenEv.close]) ∧
      (n < 9223372036854775808 → seqTo n = oneTo n) :=
  ⟨jamState_reachable, generator_contract 2 jamState jamState_reachable⟩

/-- A step from a state in which `chIn` is closed leaves it closed and does not
touch the accounting variables. -/
theorem closed_step {cap : Nat} {s t : State} {a : Action}
    (h : step cap s a = some t) (hd : s.gen = GenPc.done) :
    t.gen = GenPc.done ∧ t.inputCount = s.inputCount ∧ t.inputSum = s.inputSum := by
  apply step_cases
    (motive := fun _ t => t.gen = GenPc.done ∧ t.inputCount = s.inputCount ∧
      t.inputSum = s.inputSum) h
  case genSend => intro _ _ _ hg; rw [hd] at hg; exact absurd hg (by decide)
  case genCall => intro _ hg; rw [hd] at hg; exact absurd hg (by decide)
  case genStop => intro _ hg; rw [hd] at hg; exact absurd hg (by decide)
  all_goals
    intros
    exact ⟨hd, rfl, rfl⟩

theorem closed_run {cap : Nat} : ∀ (acts : List Action) (s t : State),
    run cap s acts = some t → s.gen = GenPc.done →
    t.gen = GenPc.done ∧ t.inputCount = s.inputCount ∧ t.inputSum = s.inputSum
  | [], s, t, h, hd => by
    simp only [run, Option.some.injEq] at h
    subst h
    exact ⟨hd, rfl, rfl⟩
  | a :: as, s, t, h, hd => by
    simp only [run] at h
    cases hst : step cap s a with
    | none => simp [hst] at h
    | some u =>
      simp only [hst, Option.some_bind] at h
      obtain ⟨h1, h2, h3⟩ := closed_step hst hd
      obtain ⟨k1, k2, k3⟩ := closed_run as u t h h1
      exact ⟨k1, k2.trans h2, k3.trans h3⟩

/-- C10. Accounting lag: the number of values accepted by `chIn` exceeds the
number of calls of the callback, which `inputCount` holds, by 0 or by 1, never
the other way round; by 0 whenever `chIn` is closed; and from a state in which
`chIn` is closed no run changes `inputCount` or `inputSum`. -/
theorem accounting_lag (N : Nat) (s : State) (hr : Reachable N s) :
    s.inputCount = wrap64 (calls s.genLog).length ∧
    ((sends s.genLog).length = (calls s.genLog).length ∨
      (sends s.genLog).length = (calls s.genLog).length + 1) ∧
    (s.chInClosed = true → (sends s.genLog).length = (calls s.genLog).length) ∧
    ((sends s.genLog).length < 9223372036854775808 →
      ((sends s.genLog).length : Int) - s.inputCount = 0 ∨
      ((sends s.genLog).length : Int) - s.inputCount = 1) ∧
    (s.chInClosed = true → ∀ (acts : List Action) (t : State), run N s acts = some t →
      t.inputCount = s.inputCount ∧ t.inputSum = s.inputSum) := by
  have hi := inv_of_reachable hr
  have hg := hi.gen
  have hlag : s.gen ≠ GenPc.called → (sends s.genLog).length = (calls s.genLog).length := by
    intro hne
    rw [sends_of_select hg hne, seqTo_length]
  have hlag' : s.gen = GenPc.called →
      (sends s.genLog).length = (calls s.genLog).length + 1 := by
    intro he
    rw [sends_of_called hg he, List.length_append, seqTo_length, List.length_singleton]
  have hor : (sends s.genLog).length = (calls s.genLog).length ∨
      (sends s.genLog).length = (calls s.genLog).length + 1 := by
    by_cases he : s.gen = GenPc.called
    · exact Or.inr (hlag' he)
    · exact Or.inl (hlag he)
  have hclosed : s.chInClosed = true → s.gen = GenPc.done := by
    intro hc
    simpa [State.chInClosed] using hc
  refine ⟨hg.count_eq, hor, fun hc => hlag (by rw [hclosed hc]; decide), fun hlt => ?_,
    fun hc acts t ht => (closed_run acts s t ht (hclosed hc)).2⟩
  have hcount : s.inputCount = (calls s.genLog).length := by
    rw [hg.count_eq]
    exact wrap64_natCast (by omega)
  rw [hcount]
  rcases hor with h | h
  · left; omega
  · right; omega

theorem accounting_lag_witness :
    Reachable 2 jamState ∧
    jamState.inputCount = wrap64 (calls jamState.genLog).length ∧
    ((sends jamState.genLog).length = (calls jamState.genLog).length ∨
      (sends jamState.genLog).length = (calls jamState.genLog).length + 1) ∧
    (jamState.chInClosed = true →
      (sends jamState.genLog).length = (calls jamState.genLog).length) ∧
    ((sends jamState.genLog).length < 9223372036854775808 →
      ((sends jamState.genLog).length : Int) - jamState.inputCount = 0 ∨
      ((sends jamState.genLog).length : Int) - jamState.inputCount = 1) ∧
    (jamState.chInClosed = true → ∀ (acts : List Action) (t : State),
      run 2 jamState acts = some t →
      t.inputCount = jamState.inputCount ∧ t.inputSum = jamState.inputSum) :=
  ⟨jamState_reachable, accounting_lag 2 jamState jamState_reachable⟩
theorem lag_attained :
    ∃ s : State, Reachable 1 s ∧ (sends s.genLog).length = 1 ∧ s.inputCount = 0 :=
  ⟨_, ⟨[Action.genSend 0], rfl⟩, by decide, by decide⟩

/-! ## `Worker` -/

theorem received_append (xs ys : List WorkerEv) :
    received (xs ++ ys) = received xs ++ received ys := by
  simp [received, List.filterMap_append]

theorem received_workerPrefix : ∀ vs : List Int, received (workerPrefix vs) = vs
  | [] => rfl
  | v :: vs => by
    have ih := received_workerPrefix vs
    simp only [received] at ih
    simp [workerPrefix, received, WorkerEv.recvVal, ih]

theorem forwarded_workerPrefix : ∀ vs : List Int, forwarded (workerPrefix vs) = vs
  | [] => rfl
  | v :: vs => by
    have ih := forwarded_workerPrefix vs
    simp only [forwarded] at ih
    simp [workerPrefix, forwarded, WorkerEv.sendVal, ih]

theorem count_close_workerPrefix : ∀ vs : List Int,
    (workerPrefix vs).count WorkerEv.close = 0
  | [] => rfl
  | v :: vs => by
    simp [workerPrefix, List.count_cons, count_close_workerPrefix vs]

theorem received_workerTail (pc : WorkerPc) : received (workerTail pc) = pc.held := by
  cases pc <;> rfl

/-- C7. Worker contract: the history of every `Worker` is
`recv v1, send v1, recv v2, send v2, ...` followed by nothing, by the receive of
the value it holds, or by the single `close(out)`.  So what it has sent on `out`
is a prefix of what it received from `in` (same values, same order), the two
differ exactly by the value it still holds, they are equal once it has
returned, and `out` is closed at most once, at the very end, with `in` closed. -/
theorem worker_contract (N : Nat) (s : State) (l : Lane) (hr : Reachable N s)
    (hl : l ∈ s.lanes) :
    l.wLog = workerPrefix (forwarded l.wLog) ++ workerTail l.w ∧
    received l.wLog = forwarded l.wLog ++ l.w.held ∧
    (forwarded l.wLog).IsPrefix (received l.wLog) ∧
    l.wLog.count WorkerEv.close = (if l.w = WorkerPc.done then 1 else 0) ∧
    (l.w = WorkerPc.done →
      received l.wLog = forwarded l.wLog ∧ s.chInClosed = true ∧
      l.wLog = workerPrefix (received l.wLog) ++ [WorkerEv.close]) := by
  have hi := inv_of_reachable hr
  have h1 := (hi.lane l hl).log
  have h2 : received l.wLog = forwarded l.wLog ++ l.w.held := by
    conv_lhs => rw [h1]
    rw [received_append, received_workerPrefix, received_workerTail]
  refine ⟨h1, h2, ?_, ?_, fun hd => ?_⟩
  · rw [h2]
    exact List.prefix_append _ _
  · generalize forwarded l.wLog = vs at h1
    rw [h1, List.count_append, count_close_workerPrefix]
    cases l.w <;> simp [workerTail, List.count_cons]
  · have h3 : received l.wLog = forwarded l.wLog := by
      rw [h2, hd]
      exact List.append_nil _
    refine ⟨h3, ?_, ?_⟩
    · have := hi.struct.workerDone l hl hd
      simp [State.chInClosed, this]
    · rw [h3]
      rw [hd] at h1
      exact h1

theorem worker_contract_witness :
    Reachable 2 drainedState ∧ drainedLane ∈ drainedState.lanes ∧
    drainedLane.wLog = workerPrefix (forwarded drainedLane.wLog) ++ workerTail drainedLane.w ∧
    received drainedLane.wLog = forwarded drainedLane.wLog ++ drainedLane.w.held ∧
    (forwarded drainedLane.wLog).IsPrefix (received drainedLane.wLog) ∧
    drainedLane.wLog.count WorkerEv.close = (if drainedLane.w = WorkerPc.done then 1 else 0) ∧
    (drainedLane.w = WorkerPc.done →
      received drainedLane.wLog = forwarded drainedLane.wLog ∧
      drainedState.chInClosed = true ∧
      drainedLane.wLog = workerPrefix (received drainedLane.wLog) ++ [WorkerEv.close]) :=
  ⟨drainedState_reachable, by decide,
    worker_contract 2 drainedState drainedLane drainedState_reachable (by decide)⟩
/-! ## The per-worker tallies -/

theorem amounts_set_same {ls : List Lane} {k : Nat} {l l' : Lane} (h : ls[k]? = some l)
    (ha : l'.amount = l.amount) : (ls.set k l').map Lane.amount = ls.map Lane.amount := by
  apply List.ext_getElem?
  intro j
  by_cases hj : k = j
  · subst hj
    rw [List.getElem?_map, List.getElem?_map, List.getElem?_set, h]
    have hk : k < ls.length := (List.getElem?_eq_some_iff.1 h).1
    simp [hk, ha]
  · rw [List.getElem?_map, List.getElem?_map, List.getElem?_set_ne hj]

theorem amounts_get_set {ls : List Lane} {k : Nat} {l l' : Lane} (h : ls[k]? = some l)
    (ha : l'.amount = l.amount) (j : Nat) :
    ((ls.set k l').map Lane.amount)[j]? = (ls.map Lane.amount)[j]? := by
  rw [amounts_set_same h ha]

/-- One step changes `amounts` only at the index of the collector that performs
`amounts[k]++`. -/
theorem amounts_frame {N : Nat} {s t : State} {a : Action}
    (hs : Struct N s) (h : step N s a = some t) (j : Nat) (hj : a ≠ Action.collTally j) :
    t.amounts[j]? = s.amounts[j]? := by
  revert hj
  apply step_cases_ok
    (motive := fun a t => a ≠ Action.collTally j → t.amounts[j]? = s.amounts[j]?) hs h
  case collTally =>
    intro k l v hk hc hne
    have hkj : k ≠ j := fun e => hne (by rw [e])
    show ((s.lanes.set k _).map Lane.amount)[j]? = (s.lanes.map Lane.amount)[j]?
    rw [List.getElem?_map, List.getElem?_map, List.getElem?_set_ne hkj]
  case genSend =>
    intro k l _ hk _ _
    show ((s.lanes.set k _).map Lane.amount)[j]? = (s.lanes.map Lane.amount)[j]?
    refine amounts_get_set hk ?_ j
    rfl
  case workerSend =>
    intro k l v hk _ _ _
    show ((s.lanes.set k _).map Lane.amount)[j]? = (s.lanes.map Lane.amount)[j]?
    refine amounts_get_set hk ?_ j
    rfl
  case workerWake =>
    intro k l hk _ _
    show ((s.lanes.set k _).map Lane.amount)[j]? = (s.lanes.map Lane.amount)[j]?
    refine amounts_get_set hk ?_ j
    rfl
  case workerStop =>
    intro k l hk _ _ _
    show ((s.lanes.set k _).map Lane.amount)[j]? = (s.lanes.map Lane.amount)[j]?
    refine amounts_get_set hk ?_ j
    rfl
  case collForward =>
    intro k l v hk _ _ _ _
    show ((s.lanes.set k _).map Lane.amount)[j]? = (s.lanes.map Lane.amount)[j]?
    refine amounts_get_set hk ?_ j
    rfl
  case collStop =>
    intro k l hk _ _ _
    show ((s.lanes.set k _).map Lane.amount)[j]? = (s.lanes.map Lane.amount)[j]?
    refine amounts_get_set hk ?_ j
    rfl
  all_goals
    intros
    rfl
theorem wrap64_sum_map (f g : Lane → Int) : ∀ ls : List Lane,
    (∀ l ∈ ls, f l = wrap64 (g l)) → wrap64 (ls.map f).sum = wrap64 (ls.map g).sum
  | [], _ => rfl
  | x :: xs, h => by
    have ih := wrap64_sum_map f g xs fun l hl => h l (List.mem_cons_of_mem x hl)
    simp only [List.map_cons, List.sum_cons]
    rw [h x (List.mem_cons_self x xs), wrap64_add_left, ← wrap64_add_right, ih,
      wrap64_add_right]

theorem natCast_sum_map (f : Lane → Nat) : ∀ ls : List Lane,
    (ls.map fun l => (f l : Int)).sum = ((ls.map f).sum : Nat)
  | [] => rfl
  | x :: xs => by
    simp only [List.map_cons, List.sum_cons, Nat.cast_add, natCast_sum_map f xs]

theorem le_sum_map (f : Lane → Nat) : ∀ (ls : List Lane) (l : Lane), l ∈ ls →
    f l ≤ (ls.map f).sum
  | x :: xs, l, hl => by
    simp only [List.map_cons, List.sum_cons]
    rcases List.mem_cons.1 hl with rfl | hl
    · omega
    · have := le_sum_map f xs l hl
      omega

theorem terminal_fwd {N : Nat} {s : State} (hi : Inv N s) (ht : s.terminated) :
    (s.lanes.map Lane.fwdCount).sum = s.got.length := by
  have h1 := hi.flow.fwd
  have h2 : (s.lanes.map Lane.collHolding).sum = 0 := by
    refine sum_map_zero _ _ fun l hl => ?_
    obtain ⟨_, hc⟩ := terminal_lanes hi ht l hl
    simp [Lane.collHolding, hc, CollPc.holding]
  rw [(hi.struct.mainFin ht).2, h2] at h1
  simpa using h1

theorem terminal_amount {N : Nat} {s : State} (hi : Inv N s) (ht : s.terminated) :
    ∀ l ∈ s.lanes, l.amount = wrap64 (l.fwdCount : Int) := by
  intro l hl
  have h1 := (hi.lane l hl).amount_eq
  obtain ⟨_, hc⟩ := terminal_lanes hi ht l hl
  simp only [Lane.pendingTally, hc, CollPc.pending, sub_zero] at h1
  exact h1

/-- C5. Distribution completeness and exclusive ownership: a step other than
`amounts[j]++` of collector `j` leaves `amounts[j]` as it is; when `main` is past
its loop, `amounts[i]` is the number of values `Worker i` forwarded on `outs[i]`
and the sum of `amounts` is `count` (in `int64`; literally so when fewer than
`2^63` values were read). -/
theorem distribution (N : Nat) (s : State) (hr : Reachable N s) :
    (∀ (a : Action) (t : State) (j : Nat), step N s a = some t →
      a ≠ Action.collTally j → t.amounts[j]? = s.amounts[j]?) ∧
    (s.terminated →
      (∀ l ∈ s.lanes, l.amount = wrap64 (forwarded l.wLog).length) ∧
      wrap64 s.amounts.sum = s.count ∧
      (s.got.length < 9223372036854775808 →
        (∀ l ∈ s.lanes, l.amount = (forwarded l.wLog).length) ∧
        s.amounts.sum = s.count)) := by
  have hi := inv_of_reachable hr
  refine ⟨fun a t j h hj => amounts_frame hi.struct h j hj, fun ht => ?_⟩
  have ha := terminal_amount hi ht
  have hf := terminal_fwd hi ht
  have hsum : wrap64 s.amounts.sum = wrap64 (s.got.length : Int) := by
    show wrap64 (s.lanes.map Lane.amount).sum = _
    rw [wrap64_sum_map Lane.amount (fun l => (l.fwdCount : Int)) s.lanes ha,
      natCast_sum_map, hf]
  refine ⟨ha, ?_, fun hlt => ?_⟩
  · rw [hsum, hi.flow.count_eq]
  · have hex : ∀ l ∈ s.lanes, l.amount = (l.fwdCount : Int) := by
      intro l hl
      rw [ha l hl]
      have := le_sum_map Lane.fwdCount s.lanes l hl
      exact wrap64_natCast (by omega)
    refine ⟨hex, ?_⟩
    have h1 : s.amounts.sum = (s.got.length : Int) := by
      show (s.lanes.map Lane.amount).sum = _
      rw [List.map_congr_left hex, natCast_sum_map, hf]
    rw [h1, hi.flow.count_eq]
    exact (wrap64_natCast hlt).symm

theorem distribution_witness :
    Reachable 2 drainedState ∧
    (∀ (a : Action) (t : State) (j : Nat), step 2 drainedState a = some t →
      a ≠ Action.collTally j → t.amounts[j]? = drainedState.amounts[j]?) ∧
    (drainedState.terminated →
      (∀ l ∈ drainedState.lanes, l.amount = wrap64 (forwarded l.wLog).length) ∧
      wrap64 drainedState.amounts.sum = drainedState.count ∧
      (drainedState.got.length < 9223372036854775808 →
        (∀ l ∈ drainedState.lanes, l.amount = (forwarded l.wLog).length) ∧
        drainedState.amounts.sum = drainedState.count)) :=
  ⟨drainedState_reachable, distribution 2 drainedState drainedState_reachable⟩
/-! ## The close of `chOut` -/

/-- Only `mergeClose` finishes the goroutine that closes `chOut`, and it can do
so only when that goroutine has not finished. -/
theorem merger_step {N : Nat} {s t : State} {a : Action}
    (hs : Struct N s) (h : step N s a = some t) :
    [a].count Action.mergeClose + flag s.mergerDone = flag t.mergerDone := by
  apply step_cases_ok
    (motive := fun a t => [a].count Action.mergeClose + flag s.mergerDone = flag t.mergerDone)
    hs h
  case mergeClose =>
    intro hm _ _
    rw [hm]
    rfl
  all_goals
    intros
    simp [List.count_cons]

theorem merger_run {N : Nat} : ∀ (acts : List Action) (s t : State),
    Struct N s → run N s acts = some t →
    acts.count Action.mergeClose + flag s.mergerDone = flag t.mergerDone
  | [], s, t, _, h => by
    simp only [run, Option.some.injEq] at h
    subst h
    simp
  | a :: as, s, t, hs, h => by
    simp only [run] at h
    cases hst : step N s a with
    | none => simp [hst] at h
    | some u =>
      simp only [hst, Option.some_bind] at h
      have h1 := merger_step hs hst
      have h2 := merger_run as u t (struct_step hs hst) h
      have h3 : (a :: as).count Action.mergeClose =
          [a].count Action.mergeClose + as.count Action.mergeClose := by
        rw [← List.count_append]
        rfl
      omega

/-- A step from a state in which `chOut` is closed writes no element of
`amounts` and leaves `chOut` closed. -/
theorem sealed_step {N : Nat} {s t : State} {a : Action}
    (hs : Struct N s) (h : step N s a = some t) (hc : s.chOutClosed = true) :
    t.amounts = s.amounts ∧ t.chOutClosed = true := by
  have hdone := hs.closed hc
  apply step_cases_ok (motive := fun _ t => t.amounts = s.amounts ∧ t.chOutClosed = true) hs h
  case collTally =>
    intro k l v hk hcv
    have := hdone l (List.getElem?_mem hk)
    rw [hcv] at this
    exact absurd this (by simp)
  case genSend =>
    intro k l _ hk _
    exact ⟨amounts_set_same hk rfl, hc⟩
  case workerSend =>
    intro k l v hk _ _
    exact ⟨amounts_set_same hk rfl, hc⟩
  case workerWake =>
    intro k l hk _
    exact ⟨amounts_set_same hk rfl, hc⟩
  case workerStop =>
    intro k l hk _ _
    exact ⟨amounts_set_same hk rfl, hc⟩
  case collForward =>
    intro k l v hk _ _ _
    exact ⟨amounts_set_same hk rfl, hc⟩
  case collStop =>
    intro k l hk _ _
    exact ⟨amounts_set_same hk rfl, hc⟩
  case mergeClose =>
    intros
    exact ⟨rfl, rfl⟩
  all_goals
    intros
    exact ⟨rfl, hc⟩

/-- C8. Merge barrier: along every run, `close(chOut)` is executed at most once
(exactly once iff `chOut` is closed); no run panics, so nothing is ever sent on
the closed `chOut`; `chOut` is closed only when every collector has returned;
once it is closed no step writes `amounts`; and `main` leaves its loop only
with `chOut` closed. -/
theorem merge_barrier (N : Nat) (acts : List Action) (s : State)
    (h : run N (init N) acts = some s) :
    acts.count Action.mergeClose ≤ 1 ∧
    (s.chOutClosed = true ↔ acts.count Action.mergeClose = 1) ∧
    s.panicked = false ∧
    (s.chOutClosed = true → ∀ l ∈ s.lanes, l.c = CollPc.done) ∧
    (s.chOutClosed = true → ∀ (a : Action) (t : State), step N s a = some t →
      t.amounts = s.amounts ∧ t.chOutClosed = true) ∧
    (s.terminated → s.chOutClosed = true) := by
  have hi := inv_of_reachable ⟨acts, h⟩
  have hm := merger_run acts (init N) s (init_inv N).struct h
  have h0 : flag (init N).mergerDone = 0 := rfl
  rw [h0, hi.struct.merger] at hm
  refine ⟨?_, ?_, hi.struct.noPanic, hi.struct.closed,
    fun hc a t ht => sealed_step hi.struct ht hc, fun ht => (hi.struct.mainFin ht).1⟩
  · rw [Nat.add_zero] at hm
    rw [hm]
    unfold flag
    split <;> omega
  · rw [Nat.add_zero] at hm
    rw [hm]
    cases s.chOutClosed <;> simp [flag]

theorem merge_barrier_witness :
    run 2 (init 2) (jamRun ++ drainRun) = some drainedState ∧
    (jamRun ++ drainRun).count Action.mergeClose ≤ 1 ∧
    (drainedState.chOutClosed = true ↔ (jamRun ++ drainRun).count Action.mergeClose = 1) ∧
    drainedState.panicked = false ∧
    (drainedState.chOutClosed = true → ∀ l ∈ drainedState.lanes, l.c = CollPc.done) ∧
    (drainedState.chOutClosed = true → ∀ (a : Action) (t : State),
      step 2 drainedState a = some t →
      t.amounts = drainedState.amounts ∧ t.chOutClosed = true) ∧
    (drainedState.terminated → drainedState.chOutClosed = true) :=
  ⟨fullRun_reaches, merge_barrier 2 (jamRun ++ drainRun) drainedState fullRun_reaches⟩
/-! ## Termination is always possible -/

/-- Every step other than a send of `Generator` lowers the rank. -/
theorem step_decreases {N : Nat} {s t : State} {a : Action}
    (hs : Struct N s) (h : step N s a = some t) (hne : ∀ k, a ≠ Action.genSend k) :
    t.rank < s.rank := by
  revert hne
  apply step_cases_ok
    (motive := fun a t => (∀ k, a ≠ Action.genSend k) → t.rank < s.rank) hs h
  case genSend =>
    intro k l _ _ _ hne
    exact absurd rfl (hne k)
  case timeout =>
    intro hc _
    simp only [State.rank, hc]
    simp
  case genCall =>
    intro hg _
    simp only [State.rank, hg, GenPc.rank]
    omega
  case genStop =>
    intro hg _ _
    simp only [State.rank, hg, GenPc.rank]
    omega
  case workerSend =>
    intro k l v hk hw hc _
    have e := sum_map_set Lane.rank s.lanes k l
      { l with w := WorkerPc.sleep, c := CollPc.got v, wLog := l.wLog ++ [WorkerEv.send v] } hk
    simp only [Lane.rank, hw, hc, WorkerPc.rank, CollPc.rank] at e
    simp only [State.rank]
    omega
  case workerWake =>
    intro k l hk hw _
    have e := sum_map_set Lane.rank s.lanes k l { l with w := WorkerPc.recv } hk
    simp only [Lane.rank, hw, WorkerPc.rank] at e
    simp only [State.rank]
    omega
  case workerStop =>
    intro k l hk hw _ _
    have e := sum_map_set Lane.rank s.lanes k l
      { l with w := WorkerPc.done, wLog := l.wLog ++ [WorkerEv.close] } hk
    simp only [Lane.rank, hw, WorkerPc.rank] at e
    simp only [State.rank]
    omega
  case collTally =>
    intro k l v hk hc _
    have e := sum_map_set Lane.rank s.lanes k l
      { l with c := CollPc.fwd v, amount := wrap64 (l.amount + 1) } hk
    simp only [Lane.rank, hc, CollPc.rank] at e
    simp only [State.rank]
    omega
  case collForward =>
    intro k l v hk hc _ _ _
    have e := sum_map_set Lane.rank s.lanes k l { l with c := CollPc.recv } hk
    simp only [Lane.rank, hc, CollPc.rank] at e
    simp only [State.rank, List.length_append, List.length_singleton]
    omega
  case collStop =>
    intro k l hk _ hc _
    have e := sum_map_set Lane.rank s.lanes k l { l with c := CollPc.done } hk
    simp only [Lane.rank, hc, CollPc.rank] at e
    simp only [State.rank]
    omega
  case mergeClose =>
    intro hm _ _ _
    simp only [State.rank, hm]
    simp
  case mainRecv =>
    intro v rest hm hc _
    simp only [State.rank, hm, hc, List.length_cons]
    omega
  case mainStop =>
    intro hm _ _ _
    simp only [State.rank, hm]
    simp

theorem enabled_of_isSome {N : Nat} {s : State} (a : Action)
    (h : (step N s a).isSome = true) (hne : ∀ k, a ≠ Action.genSend k) :
    ∃ (a : Action) (t : State), step N s a = some t ∧ ∀ k, a ≠ Action.genSend k := by
  obtain ⟨t, ht⟩ := Option.isSome_iff_exists.1 h
  exact ⟨a, t, ht, hne⟩

theorem collActive_all_done : ∀ ls : List Lane, (∀ l ∈ ls, l.c = CollPc.done) →
    (ls.map Lane.collActive).sum = 0
  | [], _ => rfl
  | x :: xs, h => by
    have hx : x.collActive = 0 := by
      simp [Lane.collActive, h x (List.mem_cons_self x xs)]
    simp only [List.map_cons, List.sum_cons, hx, zero_add]
    exact collActive_all_done xs fun l hl => h l (List.mem_cons_of_mem x hl)

/-- In a state in which `main` is still in its loop some goroutine other than
a sending `Generator` can take a step. -/
theorem progress {N : Nat} {s : State} (hi : Inv N s) (hN : 1 ≤ N)
    (hnt : ¬ s.terminated) :
    ∃ (a : Action) (t : State), step N s a = some t ∧ ∀ k, a ≠ Action.genSend k := by
  have hs := hi.struct
  have hp := hs.noPanic
  have hmain : s.main = MainPc.reading := by
    cases hm : s.main with
    | reading => rfl
    | finished => exact absurd hm hnt
  cases hctx : s.ctxDone with
  | false =>
    exact enabled_of_isSome Action.timeout (by simp [step, hp, hctx])
      (fun _ e => Action.noConfusion e)
  | true =>
  cases hg : s.gen with
  | called =>
    exact enabled_of_isSome Action.genCall (by simp [step, hp, hg])
      (fun _ e => Action.noConfusion e)
  | select =>
    exact enabled_of_isSome Action.genStop (by simp [step, hp, hg, hctx])
      (fun _ e => Action.noConfusion e)
  | done =>
    by_cases hall : ∀ l ∈ s.lanes, l.c = CollPc.done
    · have hwg : s.wg = 0 := by rw [hs.wgEq]; exact collActive_all_done _ hall
      cases hm : s.mergerDone with
      | false =>
        have hcl : s.chOutClosed = false := by rw [← hs.merger]; exact hm
        exact enabled_of_isSome Action.mergeClose (by simp [step, hp, hm, hwg, hcl])
          (fun _ e => Action.noConfusion e)
      | true =>
        have hcl : s.chOutClosed = true := by rw [← hs.merger]; exact hm
        cases hout : s.chOut with
        | nil =>
          exact enabled_of_isSome Action.mainStop (by simp [step, hp, hmain, hout, hcl])
            (fun _ e => Action.noConfusion e)
        | cons v rest =>
          exact enabled_of_isSome Action.mainRecv (by simp [step, hp, hmain, hout])
            (fun _ e => Action.noConfusion e)
    · push_neg at hall
      obtain ⟨l, hl, hne⟩ := hall
      obtain ⟨k, hk⟩ := List.mem_iff_getElem?.1 hl
      cases hc : l.c with
      | done => exact absurd hc hne
      | got v =>
        exact enabled_of_isSome (Action.collTally k) (by simp [step, hp, hk, hc])
          (fun _ e => Action.noConfusion e)
      | fwd v =>
        have hcl : s.chOutClosed = false := by
          cases hcc : s.chOutClosed with
          | false => rfl
          | true => exact absurd (hs.closed hcc l hl) hne
        by_cases hlen : s.chOut.length < N
        · exact enabled_of_isSome (Action.collForward k)
            (by simp [step, hp, hk, hc, hcl, hlen]) (fun _ e => Action.noConfusion e)
        · cases hout : s.chOut with
          | nil =>
            rw [hout] at hlen
            simp only [List.length_nil] at hlen
            omega
          | cons x rest =>
            exact enabled_of_isSome Action.mainRecv (by simp [step, hp, hmain, hout])
              (fun _ e => Action.noConfusion e)
      | recv =>
        cases hw : l.w with
        | recv =>
          exact enabled_of_isSome (Action.workerStop k)
            (by simp [step, hp, hk, hw, State.chInClosed, hg])
            (fun _ e => Action.noConfusion e)
        | hold v =>
          exact enabled_of_isSome (Action.workerSend k) (by simp [step, hp, hk, hw, hc])
            (fun _ e => Action.noConfusion e)
        | sleep =>
          exact enabled_of_isSome (Action.workerWake k) (by simp [step, hp, hk, hw])
            (fun _ e => Action.noConfusion e)
        | done =>
          refine enabled_of_isSome (Action.collStop k) ?_ (fun _ e => Action.noConfusion e)
          simp only [step, hp, hk, hw, hc]
          by_cases hneg : s.wg - 1 < 0 <;> simp [hneg]

/-- From every reachable state of a pipeline with `N ≥ 1` workers some run
leads to a state in which `main` is past its loop: the pipeline can always
finish. -/
theorem can_terminate (N : Nat) (hN : 1 ≤ N) : ∀ (n : Nat) (s : State),
    s.rank ≤ n → Reachable N s →
    ∃ (acts : List Action) (t : State), run N s acts = some t ∧ t.terminated
  | 0, s, hn, _ => by
    refine ⟨[], s, rfl, ?_⟩
    by_contra hnt
    have hm : ¬ s.main = MainPc.finished := hnt
    simp only [State.rank, hm, if_false] at hn
    omega
  | n + 1, s, hn, hr => by
    by_cases ht : s.terminated
    · exact ⟨[], s, rfl, ht⟩
    · have hi := inv_of_reachable hr
      obtain ⟨a, t, hst, hne⟩ := progress hi hN ht
      have hdec := step_decreases hi.struct hst hne
      obtain ⟨acts, u, hu, hterm⟩ :=
        can_terminate N hN n t (by omega) (reachable_step hr hst)
      exact ⟨a :: acts, u, by simp [run, hst, hu], hterm⟩

/-- C9. No deadlock: in a pipeline with `N ≥ 1` workers and `chOut` of capacity
`N`, every reachable state in which the context has expired is either the
terminal state (every channel closed, `chOut` drained, every goroutine
returned) or has an enabled step; `chOut` being full while `main` has not read
is no exception.  A worker returns only with `chIn` closed, a collector only
with its `outs[i]` closed and holding nothing, `main` only with `chOut` closed
and empty and no value held anywhere. -/
theorem no_deadlock (N : Nat) (s : State) (hN : 1 ≤ N) (hr : Reachable N s)
    (hctx : s.ctxDone = true) :
    ((s.terminated ∧ s.chInClosed = true ∧
        (∀ l ∈ s.lanes, l.w = WorkerPc.done ∧ l.c = CollPc.done) ∧
        s.chOutClosed = true ∧ s.chOut = [] ∧ s.mergerDone = true) ∨
      ∃ (a : Action) (t : State), step N s a = some t ∧ a ≠ Action.timeout) ∧
    (∀ l ∈ s.lanes, l.w = WorkerPc.done → s.chInClosed = true) ∧
    (∀ l ∈ s.lanes, l.c = CollPc.done → l.w = WorkerPc.done ∧ l.held = []) ∧
    (s.terminated → s.chOutClosed = true ∧ s.chOut = [] ∧ ∀ l ∈ s.lanes, l.held = []) := by
  have hi := inv_of_reachable hr
  have hs := hi.struct
  have hheld : ∀ l ∈ s.lanes, l.c = CollPc.done → l.w = WorkerPc.done ∧ l.held = [] := by
    intro l hl hc
    have hw := hs.collDone l hl hc
    exact ⟨hw, by simp [Lane.held, hw, hc, WorkerPc.held, CollPc.held]⟩
  refine ⟨?_, fun l hl hw => by simp [State.chInClosed, hs.workerDone l hl hw], hheld,
    fun ht => ⟨(hs.mainFin ht).1, (hs.mainFin ht).2,
      fun l hl => (hheld l hl (terminal_lanes hi ht l hl).2).2⟩⟩
  by_cases ht : s.terminated
  · left
    have hcl := (hs.mainFin ht).1
    refine ⟨ht, by simp [State.chInClosed, terminal_gen hi hN ht], terminal_lanes hi ht, hcl,
      (hs.mainFin ht).2, ?_⟩
    rw [hs.merger]
    exact hcl
  · right
    obtain ⟨a, t, hst, _⟩ := progress hi hN ht
    refine ⟨a, t, hst, ?_⟩
    intro ha
    subst ha
    simp [step, hs.noPanic, hctx] at hst

theorem no_deadlock_witness :
    Reachable 2 jamState ∧ jamState.ctxDone = true ∧
    jamState.chOut.length = 2 ∧ jamState.got = [] ∧
    ((jamState.terminated ∧ jamState.chInClosed = true ∧
        (∀ l ∈ jamState.lanes, l.w = WorkerPc.done ∧ l.c = CollPc.done) ∧
        jamState.chOutClosed = true ∧ jamState.chOut = [] ∧ jamState.mergerDone = true) ∨
      ∃ (a : Action) (t : State), step 2 jamState a = some t ∧ a ≠ Action.timeout) ∧
    (∀ l ∈ jamState.lanes, l.w = WorkerPc.done → jamState.chInClosed = true) ∧
    (∀ l ∈ jamState.lanes, l.c = CollPc.done → l.w = WorkerPc.done ∧ l.held = []) ∧
    (jamState.terminated →
      jamState.chOutClosed = true ∧ jamState.chOut = [] ∧
      ∀ l ∈ jamState.lanes, l.held = []) :=
  ⟨jamState_reachable, rfl, rfl, rfl,
    no_deadlock 2 jamState (by decide) jamState_reachable rfl⟩
/-! ## The final check -/

theorem wrap64_sub_left (a b : Int) : wrap64 (wrap64 a - b) = wrap64 (a - b) := by
  unfold wrap64; omega

theorem drainAmounts_eq : ∀ (amounts : List Int) (c : Int), InRange c →
    drainAmounts c amounts = wrap64 (c - amounts.sum)
  | [], c, hc => by
    simp only [drainAmounts, List.foldl_nil, List.sum_nil, sub_zero]
    exact (wrap64_of_inRange hc).symm
  | v :: vs, c, _ => by
    have ih := drainAmounts_eq vs (wrap64 (c - v)) (wrap64_inRange _)
    simp only [drainAmounts, List.foldl_cons, List.sum_cons] at ih ⊢
    rw [ih, wrap64_sub_left]
    congr 1
    omega

theorem drain_zero_iff (c x : Int) (hc : InRange c) : wrap64 (c - x) = 0 ↔ wrap64 x = c := by
  unfold InRange at hc
  unfold wrap64
  omega

theorem drain_iff (inputCount : Int) (amounts : List Int) (hc : InRange inputCount) :
    drainAmounts inputCount amounts = 0 ↔ wrap64 amounts.sum = inputCount := by
  rw [drainAmounts_eq amounts inputCount hc]
  exact drain_zero_iff inputCount amounts.sum hc

theorem finalCheck_none_iff (inputSum inputCount sum count : Int) (amounts : List Int)
    (hc : InRange inputCount) :
    finalCheck inputSum inputCount sum count amounts = none ↔
      (sum = inputSum ∧ count = inputCount ∧ wrap64 amounts.sum = count) := by
  have h3 := drain_iff inputCount amounts hc
  unfold finalCheck
  by_cases h1 : inputSum = sum
  · by_cases h2 : inputCount = count
    · subst h1 h2
      by_cases h0 : drainAmounts inputCount amounts = 0
      · simp [h0, h3.1 h0]
      · have : ¬ wrap64 amounts.sum = inputCount := fun h => h0 (h3.2 h)
        simp [h0, this]
    · have h2' : ¬ count = inputCount := fun h => h2 h.symm
      simp [h1, h2, h2']
  · have h1' : ¬ sum = inputSum := fun h => h1 h.symm
    simp [h1, h1']

theorem not_and3_iff {p q r : Prop} : ¬ (p ∧ q ∧ r) ↔ (¬ p ∨ ¬ q ∨ ¬ r) := by
  constructor
  · intro h
    by_contra hcon
    push_neg at hcon
    exact h hcon
  · rintro (h | h | h) ⟨a, b, c⟩
    · exact h a
    · exact h b
    · exact h c

/-- C6, amended. Validator verdict: for every `int64` value of `inputCount` and
all values of the other variables, the final check of `main` halts with a fatal
error exactly when `sum != inputSum`, or `count != inputCount`, or the sum of the
entries of `amounts`, reduced to `int64`, differs from `count`; the third test
of the code, which subtracts every entry of `amounts` from `inputCount` and
compares with `0`, decides exactly whether that reduced sum differs from
`inputCount`.  Whenever the exact sum of the entries is itself an `int64`
value, the reduction can be dropped: the check is fatal exactly when one of the
three mismatches of the claim holds. -/
theorem validator_verdict (inputSum inputCount sum count : Int) (amounts : List Int)
    (hc : InRange inputCount) :
    (finalCheck inputSum inputCount sum count amounts ≠ none ↔
      (sum ≠ inputSum ∨ count ≠ inputCount ∨ wrap64 amounts.sum ≠ count)) ∧
    (finalCheck inputSum inputCount sum count amounts = none ↔
      (sum = inputSum ∧ count = inputCount ∧ wrap64 amounts.sum = count)) ∧
    (drainAmounts inputCount amounts ≠ 0 ↔ wrap64 amounts.sum ≠ inputCount) ∧
    (InRange amounts.sum →
      (finalCheck inputSum inputCount sum count amounts ≠ none ↔
        (sum ≠ inputSum ∨ count ≠ inputCount ∨ amounts.sum ≠ count)) ∧
      (drainAmounts inputCount amounts ≠ 0 ↔ amounts.sum ≠ inputCount)) := by
  have hnone := finalCheck_none_iff inputSum inputCount sum count amounts hc
  have hdrain := drain_iff inputCount amounts hc
  have hfatal : finalCheck inputSum inputCount sum count amounts ≠ none ↔
      (sum ≠ inputSum ∨ count ≠ inputCount ∨ wrap64 amounts.sum ≠ count) := by
    rw [Ne, hnone]
    exact not_and3_iff
  refine ⟨hfatal, hnone, not_congr hdrain, fun hr => ?_⟩
  have hw : wrap64 amounts.sum = amounts.sum := wrap64_of_inRange hr
  rw [hw] at hfatal hdrain
  exact ⟨hfatal, not_congr hdrain⟩

theorem validator_verdict_witness :
    InRange 3 ∧
    (finalCheck 6 3 6 3 [2, 1] ≠ none ↔
      ((6 : Int) ≠ 6 ∨ (3 : Int) ≠ 3 ∨ wrap64 ([2, 1] : List Int).sum ≠ 3)) ∧
    (finalCheck 6 3 6 3 [2, 1] = none ↔
      ((6 : Int) = 6 ∧ (3 : Int) = 3 ∧ wrap64 ([2, 1] : List Int).sum = 3)) ∧
    (drainAmounts 3 [2, 1] ≠ 0 ↔ wrap64 ([2, 1] : List Int).sum ≠ 3) ∧
    (InRange ([2, 1] : List Int).sum →
      (finalCheck 6 3 6 3 [2, 1] ≠ none ↔
        ((6 : Int) ≠ 6 ∨ (3 : Int) ≠ 3 ∨ ([2, 1] : List Int).sum ≠ 3)) ∧
      (drainAmounts 3 [2, 1] ≠ 0 ↔ ([2, 1] : List Int).sum ≠ 3)) :=
  ⟨by decide, validator_verdict 6 3 6 3 [2, 1] (by decide)⟩

/-- C6 as stated fails.  With all four counters `0` and
`amounts = [2^63 - 1, 2^63 - 1, 2]`, every value an `int64`, the loop
`inputCount -= v` runs `0, -(2^63 - 1), 2, 0`, so the third test passes and the
check returns normally, although the sum of the entries of `amounts` is `2^64`
and differs from `count`. -/
theorem validator_verdict_counterexample :
    (∀ v ∈ ([9223372036854775807, 9223372036854775807, 2] : List Int), InRange v) ∧
    InRange 0 ∧
    finalCheck 0 0 0 0 [9223372036854775807, 9223372036854775807, 2] = none ∧
    ([9223372036854775807, 9223372036854775807, 2] : List Int).sum ≠ 0 ∧
    ¬ (finalCheck 0 0 0 0 [9223372036854775807, 9223372036854775807, 2] ≠ none ↔
      ((0 : Int) ≠ 0 ∨ (0 : Int) ≠ 0 ∨
        ([9223372036854775807, 9223372036854775807, 2] : List Int).sum ≠ 0)) := by
  decide

theorem finalCheck_examples :
    finalCheck 6 3 6 3 [2, 1] = none ∧
    finalCheck 6 3 5 3 [2, 1] = some Fatal.sumMismatch ∧
    finalCheck 6 3 6 2 [2, 1] = some Fatal.countMismatch ∧
    finalCheck 6 3 6 3 [2, 2] = some Fatal.distributionMismatch := by
  decide

/-- The pipeline passes its own final check: when `main` is past its loop the
check returns normally. -/
theorem verdict_ok (N : Nat) (s : State) (hN : 1 ≤ N) (hr : Reachable N s)
    (ht : s.terminated) : s.verdict = none := by
  have hi := inv_of_reachable hr
  have hgen := terminal_gen hi hN ht
  have hp := terminal_perm hi ht
  have hs := sends_of_select hi.gen (by rw [hgen]; decide)
  rw [hs] at hp
  have hcount : s.inputCount = s.count := by
    rw [hi.gen.count_eq, hi.flow.count_eq, hp.length_eq, seqTo_length]
  have hsum : s.inputSum = s.sum := by
    rw [hi.gen.sum_eq, hi.flow.sum_eq, hp.sum_eq, seqTo_sum]
  have hrange : InRange s.inputCount := by
    rw [hi.gen.count_eq]
    exact wrap64_inRange _
  have htally : wrap64 s.amounts.sum = s.count := by
    show wrap64 (s.lanes.map Lane.amount).sum = _
    rw [wrap64_sum_map Lane.amount (fun l => (l.fwdCount : Int)) s.lanes
      (terminal_amount hi ht), natCast_sum_map, terminal_fwd hi ht, hi.flow.count_eq]
  exact (finalCheck_none_iff s.inputSum s.inputCount s.sum s.count s.amounts hrange).2
    ⟨hsum.symm, hcount.symm, htally⟩

end Pipeline
